import Mathlib

/-!
Shallow embedding of `src/djikstra.py`: a weighted undirected graph stored as
an insertion-ordered adjacency mapping (Python `dict` keeps insertion order,
which fixes the tie-breaking of `min` and hence the exact output), plus
Dijkstra's algorithm over it.  Python's duck-typed numeric weights are
modelled by a type `W` carrying the operations the code uses — a linear order
(for `<` and `min`), addition, and the literal `0` — so the development covers
`ℤ`, `ℚ` and `ℝ` weights uniformly; `float("inf")` is the extra element
`Dist.inf` and raised exceptions are modelled by `Except Err`.
-/

set_option linter.unusedSectionVars false

namespace Djikstra

variable {α : Type} {β : Type} {W : Type} [DecidableEq α] [LinearOrder W]
  [Add W] [Zero W] {R : Type} [LinearOrderedAddCommMonoid R]

/-- Python `dict` lookup `d[k]` (as an `Option`): first binding of key `k` in
the insertion-ordered association list. -/
def alookup : List (α × β) → α → Option β
  | [], _ => none
  | (a, b) :: t, k => if a = k then some b else alookup t k

/-- Python `dict` assignment `d[k] = v`: overwrite the first binding of `k` in
place (keeping its position), or append a new binding when `k` is absent. -/
def aupd : List (α × β) → α → β → List (α × β)
  | [], k, v => [(k, v)]
  | (a, b) :: t, k, v => if a = k then (k, v) :: t else (a, b) :: aupd t k v

/-- The key list of a mapping (Python `list(d)` / iteration order). -/
def keyList (l : List (α × β)) : List α := l.map Prod.fst

/-- `class Graph`: `self.vertices` maps each vertex to its neighbor→weight map. -/
structure Graph (α : Type) (W : Type) where
  vertices : List (α × List (α × W))
deriving DecidableEq

/-- `Graph.__init__`: `self.vertices = {}`. -/
def Graph.empty : Graph α W := ⟨[]⟩

/-- `Graph.add_vertex`: `if vertex not in self.vertices: self.vertices[vertex] = {}`
(else a warning is logged and nothing changes). -/
def Graph.add_vertex (g : Graph α W) (vertex : α) : Graph α W :=
  if (alookup g.vertices vertex).isSome then g else ⟨g.vertices ++ [(vertex, [])]⟩

/-- `self.vertices[u][v] = weight`: update the neighbor map stored at key `u`
(`u` is always present at the call sites, after `add_vertex`). -/
def setWeight (l : List (α × List (α × W))) (u v : α) (w : W) :
    List (α × List (α × W)) :=
  l.map fun p => if p.1 = u then (p.1, aupd p.2 v w) else p

/-- `Graph.add_edge`: ensure both endpoints exist, then set the weight in both
directions (undirected graph). -/
def Graph.add_edge (g : Graph α W) (u v : α) (weight : W) : Graph α W :=
  let g2 := (g.add_vertex u).add_vertex v
  ⟨setWeight (setWeight g2.vertices u v weight) v u weight⟩

/-- `Graph.get_neighbors`: `self.vertices.get(vertex, {})`. -/
def Graph.get_neighbors (g : Graph α W) (vertex : α) : List (α × W) :=
  (alookup g.vertices vertex).getD []

/-- A distance value: `float("inf")` or a finite number. -/
inductive Dist (W : Type) where
  | inf : Dist W
  | fin (q : W) : Dist W
deriving DecidableEq

/-- Python `<` on distance values (`inf < x` is false, `x < inf` is true for
finite `x`). -/
def dlt : Dist W → Dist W → Bool
  | Dist.inf, _ => false
  | Dist.fin _, Dist.inf => true
  | Dist.fin a, Dist.fin b => decide (a < b)

/-- `distances[current_vertex] + weight` (`inf + w = inf`). -/
def addD : Dist W → W → Dist W
  | Dist.inf, _ => Dist.inf
  | Dist.fin a, w => Dist.fin (a + w)

/-- Exceptions raised by `dijkstra`: `TypeError` for a non-`Graph` argument,
`ValueError` for an unknown source, `KeyError` for a missing dict key. -/
inductive Err where
  | typeError
  | valueError
  | keyError
deriving DecidableEq

/-- The mutable state of the main loop: the `distances` and `predecessors`
dictionaries. -/
structure St (α : Type) (W : Type) where
  distances : List (α × Dist W)
  predecessors : List (α × Option α)
deriving DecidableEq

/-- Distance lookup inside `min`'s key function.  In `dijkstra`, `unvisited` is
always a subset of the keys of `distances`, so the `inf` default is never
used; it only totalizes the function. -/
def distOf (d : List (α × Dist W)) (v : α) : Dist W := (alookup d v).getD Dist.inf

/-- `min(unvisited, key=lambda vertex: distances[vertex])`: fold keeping the
first element whose distance is strictly smaller than the best so far, so the
earliest minimum wins (Python's tie-break). -/
def pyMin (d : List (α × Dist W)) : α → List α → α
  | best, [] => best
  | best, x :: xs =>
    if dlt (distOf d x) (distOf d best) then pyMin d x xs else pyMin d best xs

/-- One execution of the relaxation body for a single `(neighbor, weight)`
pair: look up `distances[current_vertex]` and `distances[neighbor]`
(`KeyError` when absent), and update both maps when the new distance is
strictly smaller. -/
def relaxOne (st : St α W) (current : α) (nw : α × W) : Except Err (St α W) :=
  match alookup st.distances current, alookup st.distances nw.1 with
  | some dc, some dn =>
    let newDistance := addD dc nw.2
    if dlt newDistance dn then
      Except.ok ⟨aupd st.distances nw.1 newDistance,
                 aupd st.predecessors nw.1 (some current)⟩
    else
      Except.ok st
  | _, _ => Except.error Err.keyError

/-- `for neighbor, weight in graph.get_neighbors(current_vertex).items(): ...` -/
def relaxList (st : St α W) (current : α) : List (α × W) → Except Err (St α W)
  | [] => Except.ok st
  | nw :: rest =>
    match relaxOne st current nw with
    | Except.error e => Except.error e
    | Except.ok st2 => relaxList st2 current rest

/-- `while unvisited:` — pick the minimum-distance unvisited vertex, remove it,
relax its neighbors.  Structural recursion on `fuel`; one unit of fuel is
spent per iteration, and `dijkstra` supplies `fuel = |unvisited|`, which is
exactly enough (each iteration removes one element).  The result carries the
number of loop iterations executed. -/
def dijkstraLoop (g : Graph α W) : ℕ → List α → St α W → Except Err (St α W × ℕ)
  | _, [], st => Except.ok (st, 0)
  | 0, _ :: _, st => Except.ok (st, 0)
  | fuel + 1, u :: us, st =>
    let current := pyMin st.distances u us
    let unvisited2 := (u :: us).erase current
    match relaxList st current (g.get_neighbors current) with
    | Except.error e => Except.error e
    | Except.ok st2 =>
      match dijkstraLoop g fuel unvisited2 st2 with
      | Except.error e => Except.error e
      | Except.ok (st3, n) => Except.ok (st3, n + 1)

/-- `dijkstra(graph, source)` for a genuine `Graph` argument: check the source,
initialize `distances` (all `inf`, then `distances[source] = 0`),
`predecessors` (all `None`) and `unvisited = list(graph.vertices)`, and run
the main loop. -/
def dijkstra (g : Graph α W) (source : α) :
    Except Err (List (α × Dist W) × List (α × Option α)) :=
  if (alookup g.vertices source).isSome then
    let distances :=
      aupd ((keyList g.vertices).map fun v => (v, Dist.inf)) source (Dist.fin 0)
    let predecessors := (keyList g.vertices).map fun v => (v, (none : Option α))
    let unvisited := keyList g.vertices
    match dijkstraLoop g unvisited.length unvisited ⟨distances, predecessors⟩ with
    | Except.error e => Except.error e
    | Except.ok (st, _) => Except.ok (st.distances, st.predecessors)
  else
    Except.error Err.valueError

/-- The dynamically-typed argument of the Python `dijkstra`: either a `Graph`
instance or any other object. -/
inductive PyArg (α : Type) (W : Type) where
  | graphArg (g : Graph α W)
  | nonGraph

/-- The full `dijkstra` entry point with the `isinstance(graph, Graph)` check
(`TypeError` on failure), which Python performs before the source-vertex
check. -/
def dijkstraDyn (arg : PyArg α W) (source : α) :
    Except Err (List (α × Dist W) × List (α × Option α)) :=
  match arg with
  | PyArg.nonGraph => Except.error Err.typeError
  | PyArg.graphArg g => dijkstra g source

/-- Vertex names of the example in `__main__`. -/
def vA : String := "A"

def vB : String := "B"

def vC : String := "C"

def vD : String := "D"

def vE : String := "E"

def vF : String := "F"

/-- The literal example graph of `__main__`: nine `add_edge` calls starting
from the empty graph (the literal weights are integers). -/
def gEx : Graph String ℤ :=
  (((((((((Graph.empty.add_edge vA vB 4).add_edge vA vC 2).add_edge vB vC
    1).add_edge vB vD 5).add_edge vC vD 8).add_edge vC vE 10).add_edge vD vE
    2).add_edge vD vF 6).add_edge vE vF 3)

/-- A one-vertex graph with a negative self-loop, built through the public
API. -/
def gNeg : Graph String ℤ := Graph.empty.add_edge vA vA (-1)

/-- A two-vertex graph with no edges: `"B"` is unreachable from `"A"`. -/
def gDisc : Graph String ℤ := (Graph.empty.add_vertex vA).add_vertex vB

/-- A graph with a non-negative self-loop at `"A"`, built through the public
API. -/
def gLoop : Graph String ℤ := (Graph.empty.add_edge vA vA 5).add_edge vA vB 2

/-- The initial loop state of `dijkstra g source`: every vertex at `inf`
except the source at `0`, and every predecessor `None`. -/
def initSt (g : Graph α W) (source : α) : St α W :=
  ⟨aupd ((keyList g.vertices).map fun v => (v, Dist.inf)) source (Dist.fin 0),
   (keyList g.vertices).map fun v => (v, (none : Option α))⟩

/-- The weight of the directed adjacency entry `u → v`, when present. -/
def edgeWeight (g : Graph α W) (u v : α) : Option W :=
  alookup (g.get_neighbors u) v

/-- `Walk g s v p w`: `p` is a walk through `g` from `s` to `v` (listing all
its vertices, starting with `s` and ending with `v`) whose edge weights sum
to `w`. -/
inductive Walk (g : Graph α W) : α → α → List α → W → Prop where
  | nil (v : α) : Walk g v v [v] 0
  | cons {u v x : α} {p : List α} {wt w : W} :
      edgeWeight g u v = some wt → Walk g v x p w → Walk g u x (u :: p) (wt + w)

/-- `v` is reachable from `s` in `g` by some walk. -/
def Reachable (g : Graph α W) (s v : α) : Prop := ∃ p w, Walk g s v p w

/-- Follow the `predecessors` map back from `v`, producing the reconstructed
source-to-`v` vertex list (the fuel bounds the number of steps; `dijkstra`'s
output needs at most `|V|`). -/
def followPred (pred : List (α × Option α)) : ℕ → α → Option (List α)
  | 0, _ => none
  | fuel + 1, v =>
    match alookup pred v with
    | some none => some [v]
    | some (some u) => Option.map (fun p => p ++ [v]) (followPred pred fuel u)
    | none => none

/-- The graphs representable by a Python `dict`-of-`dict`s in which every
neighbor key is itself a vertex: top-level keys are distinct, and each
neighbor map has distinct keys all present at top level. -/
structure WellFormed (g : Graph α W) : Prop where
  nodupKeys : (keyList g.vertices).Nodup
  closed : ∀ p ∈ g.vertices, ∀ q ∈ p.2, q.1 ∈ keyList g.vertices
  nodupNbrs : ∀ p ∈ g.vertices, (keyList p.2).Nodup

/-- The loop state keeps exactly the graph's vertices as keys of both maps. -/
def KeysInv (g : Graph α W) (st : St α W) : Prop :=
  keyList st.distances = keyList g.vertices ∧
  keyList st.predecessors = keyList g.vertices

/-- The invariant behind the amended C3: the source sits at distance `0` with
no predecessor, and every finite distance is non-negative. -/
def SourceZeroInv (source : α) (st : St α R) : Prop :=
  alookup st.distances source = some (Dist.fin 0) ∧
  alookup st.predecessors source = some none ∧
  ∀ v q, alookup st.distances v = some (Dist.fin q) → 0 ≤ q

/-- The invariant behind C4: both maps keep every vertex as a key, a finite
distance entry certifies reachability from the source, and so does any
assigned predecessor. -/
def UnreachInv (g : Graph α W) (source : α) (st : St α W) : Prop :=
  (∀ x ∈ keyList g.vertices,
    x ∈ keyList st.distances ∧ x ∈ keyList st.predecessors) ∧
  (∀ v q, alookup st.distances v = some (Dist.fin q) → Reachable g source v) ∧
  (∀ v u, alookup st.predecessors v = some (some u) → Reachable g source v)

/-- All edge weights of `g` are non-negative. -/
def NonnegWeights (g : Graph α W) : Prop :=
  ∀ p ∈ g.vertices, ∀ q ∈ p.2, 0 ≤ q.2

instance decNonnegWeights (g : Graph α W) : Decidable (NonnegWeights g) := by
  unfold NonnegWeights
  infer_instance

/-- All self-loop entries of `g` carry a non-negative weight. -/
def NonnegSelfLoops (g : Graph α W) : Prop :=
  ∀ p ∈ g.vertices, ∀ q ∈ p.2, q.1 = p.1 → 0 ≤ q.2

instance decNonnegSelfLoops (g : Graph α W) : Decidable (NonnegSelfLoops g) := by
  unfold NonnegSelfLoops
  infer_instance

/-- `g` with every self-loop adjacency entry deleted. -/
def delSelfLoops (g : Graph α W) : Graph α W :=
  ⟨g.vertices.map fun p => (p.1, p.2.filter fun q => q.1 ≠ p.1)⟩

/-- The graphs reachable from `Graph()` through the public mutators
`add_vertex` and `add_edge`. -/
inductive Built : Graph α W → Prop where
  | empty : Built Graph.empty
  | addVertex {g : Graph α W} (v : α) : Built g → Built (g.add_vertex v)
  | addEdge {g : Graph α W} (u v : α) (w : W) : Built g → Built (g.add_edge u v w)

/-- The specification-side order on distance values (`inf` is the top
element); `dlt` is its strict decision procedure. -/
def dle : Dist W → Dist W → Prop
  | _, Dist.inf => True
  | Dist.inf, Dist.fin _ => False
  | Dist.fin a, Dist.fin b => a ≤ b

/-- The main loop invariant of Dijkstra's algorithm on non-negative-weight
well-formed graphs, relative to the current unvisited list `U` (writing `K`
for the vertex list): both maps cover `K`; the source has distance `0`;
visited distances are below unvisited ones; visited distances are lower
bounds on every walk from the source; every edge out of a visited vertex is
relaxed; and every finite distance is witnessed by the predecessor chain,
which reconstructs an actual walk of exactly that weight through visited
vertices. -/
structure DijkInv (g : Graph α R) (source : α) (U : List α) (st : St α R) :
    Prop where
  keysd : keyList st.distances = keyList g.vertices
  unodup : U.Nodup
  usub : ∀ x ∈ U, x ∈ keyList g.vertices
  srczero : alookup st.distances source = some (Dist.fin 0)
  mono : ∀ u ∈ keyList g.vertices, u ∉ U → ∀ v ∈ U,
    dle (distOf st.distances u) (distOf st.distances v)
  vfin : ∀ u ∈ keyList g.vertices, u ∉ U → ∀ p w, Walk g source u p w →
    dle (distOf st.distances u) (Dist.fin w)
  relaxed : ∀ u ∈ keyList g.vertices, u ∉ U → ∀ x wt,
    edgeWeight g u x = some wt →
    dle (distOf st.distances x) (addD (distOf st.distances u) wt)
  chain : ∀ v q, alookup st.distances v = some (Dist.fin q) →
    ∃ p, followPred st.predecessors (keyList g.vertices).length v = some p ∧
      Walk g source v p q ∧ p.Nodup ∧ ∀ x ∈ p.dropLast, x ∉ U

/-- The inner (relaxation-round) invariant, relative to the state `st0` at
the start of the round, the vertex `cur` being expanded, and the already
shrunk unvisited list `U2`: vertex keys are preserved; the source keeps
distance `0`; distances outside `U2` are untouched; distances never
increase; every distance is either untouched or set through an edge out of
`cur`; and predecessor chains keep reconstructing all finite distances. -/
def RoundInv (g : Graph α R) (source cur : α) (U2 : List α)
    (st0 st : St α R) : Prop :=
  keyList st.distances = keyList g.vertices ∧
  alookup st.distances source = some (Dist.fin 0) ∧
  (∀ v, v ∉ U2 → distOf st.distances v = distOf st0.distances v) ∧
  (∀ v, dle (distOf st.distances v) (distOf st0.distances v)) ∧
  (∀ v, distOf st.distances v = distOf st0.distances v ∨
    ∃ wt, edgeWeight g cur v = some wt ∧
      distOf st.distances v = addD (distOf st0.distances cur) wt) ∧
  (∀ v q, alookup st.distances v = some (Dist.fin q) →
    ∃ p, followPred st.predecessors (keyList g.vertices).length v = some p ∧
      Walk g source v p q ∧ p.Nodup ∧ ∀ x ∈ p.dropLast, x ∉ U2)

deriving instance DecidableEq for Except

/-! ### Association-list lemmas -/

theorem alookup_cons {a : α} {b : β} {t : List (α × β)} {k : α} :
    alookup ((a, b) :: t) k = if a = k then some b else alookup t k := rfl

theorem keyList_nil : keyList ([] : List (α × β)) = [] := rfl

theorem keyList_cons {a : α} {b : β} {t : List (α × β)} :
    keyList ((a, b) :: t) = a :: keyList t := rfl

theorem keyList_append {l₁ l₂ : List (α × β)} :
    keyList (l₁ ++ l₂) = keyList l₁ ++ keyList l₂ := by
  simp [keyList]

theorem alookup_isSome_iff_mem {l : List (α × β)} {k : α} :
    (alookup l k).isSome ↔ k ∈ keyList l := by
  induction l with
  | nil => simp [alookup, keyList_nil]
  | cons p t ih =>
    obtain ⟨a, b⟩ := p
    by_cases h : a = k
    · simp [alookup_cons, keyList_cons, h]
    · have h2 : ¬k = a := fun hh => h hh.symm
      simp [alookup_cons, keyList_cons, h, h2, ih]

theorem alookup_eq_none_iff_not_mem {l : List (α × β)} {k : α} :
    alookup l k = none ↔ k ∉ keyList l := by
  rw [← alookup_isSome_iff_mem]
  cases alookup l k <;> simp

theorem alookup_append_left {l₁ l₂ : List (α × β)} {k : α}
    (h : (alookup l₁ k).isSome) : alookup (l₁ ++ l₂) k = alookup l₁ k := by
  induction l₁ with
  | nil => simp [alookup] at h
  | cons p t ih =>
    obtain ⟨a, b⟩ := p
    by_cases hak : a = k <;> simp [alookup_cons, hak] at h ⊢
    exact ih h

theorem alookup_append_right {l₁ l₂ : List (α × β)} {k : α}
    (h : alookup l₁ k = none) : alookup (l₁ ++ l₂) k = alookup l₂ k := by
  induction l₁ with
  | nil => simp
  | cons p t ih =>
    obtain ⟨a, b⟩ := p
    by_cases hak : a = k <;> simp [alookup_cons, hak] at h ⊢
    exact ih h

theorem alookup_aupd_self {l : List (α × β)} {k : α} {v : β} :
    alookup (aupd l k v) k = some v := by
  induction l with
  | nil => simp [aupd, alookup_cons]
  | cons p t ih =>
    obtain ⟨a, b⟩ := p
    by_cases h : a = k <;> simp [aupd, alookup_cons, h, ih]

theorem alookup_aupd_ne {l : List (α × β)} {k k' : α} {v : β} (h : k' ≠ k) :
    alookup (aupd l k v) k' = alookup l k' := by
  have hkk : k ≠ k' := fun hh => h hh.symm
  induction l with
  | nil => simp [aupd, alookup_cons, hkk, alookup]
  | cons p t ih =>
    obtain ⟨a, b⟩ := p
    by_cases hak : a = k
    · subst hak
      simp [aupd, alookup_cons, hkk]
    · simp [aupd, alookup_cons, hak, ih]

theorem keyList_aupd_of_mem {l : List (α × β)} {k : α} {v : β}
    (h : k ∈ keyList l) : keyList (aupd l k v) = keyList l := by
  induction l with
  | nil => simp [keyList_nil] at h
  | cons p t ih =>
    obtain ⟨a, b⟩ := p
    by_cases hak : a = k
    · simp [aupd, keyList_cons, hak]
    · rw [keyList_cons, List.mem_cons] at h
      rcases h with h | h
      · exact absurd h.symm hak
      · simp [aupd, keyList_cons, hak, ih h]

theorem keyList_aupd_of_not_mem {l : List (α × β)} {k : α} {v : β}
    (h : k ∉ keyList l) : keyList (aupd l k v) = keyList l ++ [k] := by
  induction l with
  | nil => simp [aupd, keyList]
  | cons p t ih =>
    obtain ⟨a, b⟩ := p
    rw [keyList_cons, List.mem_cons] at h
    push_neg at h
    simp [aupd, keyList_cons, Ne.symm h.1, ih h.2]

theorem alookup_map_const {l : List α} {c : β} {k : α} :
    alookup (l.map fun v => (v, c)) k = if k ∈ l then some c else none := by
  induction l with
  | nil => simp [alookup]
  | cons a t ih =>
    by_cases h : a = k
    · subst h
      simp [alookup_cons]
    · simp only [List.map_cons, alookup_cons, h, if_false, ih, List.mem_cons]
      have : ¬k = a := fun hh => h hh.symm
      simp [this]

theorem keyList_map_const {l : List α} {c : β} :
    keyList (l.map fun v => (v, c)) = l := by
  induction l with
  | nil => rfl
  | cons a t ih => simpa [keyList_cons] using ih

/-! ### `Graph.add_vertex` and `Graph.add_edge` lemmas -/

theorem add_vertex_of_mem {g : Graph α W} {v : α}
    (h : (alookup g.vertices v).isSome) : g.add_vertex v = g := by
  simp [Graph.add_vertex, h]

theorem alookup_add_vertex_self {g : Graph α W} {v : α} :
    (alookup (g.add_vertex v).vertices v).isSome := by
  unfold Graph.add_vertex
  by_cases h : (alookup g.vertices v).isSome
  · simp [h]
  · rw [if_neg h]
    have hn : alookup g.vertices v = none := by
      cases hv : alookup g.vertices v
      · rfl
      · rw [hv] at h
        simp at h
    simp [alookup_append_right hn, alookup_cons]

theorem alookup_add_vertex_mono {g : Graph α W} {v x : α}
    (h : (alookup g.vertices x).isSome) :
    alookup (g.add_vertex v).vertices x = alookup g.vertices x := by
  unfold Graph.add_vertex
  by_cases hv : (alookup g.vertices v).isSome
  · simp [hv]
  · rw [if_neg hv]
    exact alookup_append_left h

/-- C9: `add_vertex` is a no-op when the vertex is already present, so two
consecutive calls with the same vertex have the same effect as one. -/
theorem claim9_add_vertex_idempotent (g : Graph α W) (v : α) :
    ((alookup g.vertices v).isSome → g.add_vertex v = g) ∧
    (g.add_vertex v).add_vertex v = g.add_vertex v :=
  ⟨fun h => add_vertex_of_mem h, add_vertex_of_mem alookup_add_vertex_self⟩

theorem setWeight_nil {u v : α} {w : W} :
    setWeight ([] : List (α × List (α × W))) u v w = [] := rfl

theorem setWeight_cons {a : α} {b : List (α × W)} {t : List (α × List (α × W))}
    {u v : α} {w : W} :
    setWeight ((a, b) :: t) u v w =
      (if a = u then (a, aupd b v w) else (a, b)) :: setWeight t u v w := by
  simp only [setWeight, List.map_cons]

theorem alookup_setWeight_self {l : List (α × List (α × W))} {u v : α} {w : W} :
    alookup (setWeight l u v w) u =
      Option.map (fun nb => aupd nb v w) (alookup l u) := by
  induction l with
  | nil => simp [setWeight_nil, alookup]
  | cons p t ih =>
    obtain ⟨a, b⟩ := p
    by_cases h : a = u
    · subst h
      simp [setWeight_cons, alookup_cons]
    · simp [setWeight_cons, alookup_cons, h, ih]

theorem alookup_setWeight_ne {l : List (α × List (α × W))} {u v x : α} {w : W}
    (hxu : x ≠ u) : alookup (setWeight l u v w) x = alookup l x := by
  induction l with
  | nil => simp [setWeight_nil]
  | cons p t ih =>
    obtain ⟨a, b⟩ := p
    by_cases h : a = u
    · subst h
      have : ¬a = x := fun hh => hxu hh.symm
      simp [setWeight_cons, alookup_cons, this, ih]
    · by_cases hax : a = x
      · subst hax
        simp [setWeight_cons, alookup_cons, hxu]
      · simp [setWeight_cons, alookup_cons, h, hax, ih]

theorem keyList_setWeight {l : List (α × List (α × W))} {u v : α} {w : W} :
    keyList (setWeight l u v w) = keyList l := by
  induction l with
  | nil => rfl
  | cons p t ih =>
    obtain ⟨a, b⟩ := p
    by_cases h : a = u <;> simp [setWeight_cons, keyList_cons, h, ih]

theorem isSome_add_vertex_add_vertex_left {g : Graph α W} {u v : α} :
    (alookup ((g.add_vertex u).add_vertex v).vertices u).isSome := by
  rw [alookup_add_vertex_mono alookup_add_vertex_self]
  exact alookup_add_vertex_self

/-- After `add_edge u v w`, looking up `v` among the neighbors of `u` yields
`w`. -/
theorem alookup_add_edge_fst (g : Graph α W) (u v : α) (w : W) :
    alookup ((g.add_edge u v w).get_neighbors u) v = some w := by
  unfold Graph.add_edge Graph.get_neighbors
  obtain ⟨nb, hnb⟩ := Option.isSome_iff_exists.mp
    (isSome_add_vertex_add_vertex_left (g := g) (u := u) (v := v))
  by_cases hvu : v = u
  · subst hvu
    simp [alookup_setWeight_self, hnb, alookup_aupd_self]
  · simp [alookup_setWeight_ne (fun hh => hvu hh.symm), alookup_setWeight_self,
      hnb, alookup_aupd_self]

/-- After `add_edge u v w`, looking up `u` among the neighbors of `v` yields
`w` (the symmetric direction). -/
theorem alookup_add_edge_snd (g : Graph α W) (u v : α) (w : W) :
    alookup ((g.add_edge u v w).get_neighbors v) u = some w := by
  unfold Graph.add_edge Graph.get_neighbors
  by_cases hvu : v = u
  · subst hvu
    obtain ⟨nb, hnb⟩ := Option.isSome_iff_exists.mp
      (isSome_add_vertex_add_vertex_left (g := g) (u := v) (v := v))
    simp [alookup_setWeight_self, hnb, alookup_aupd_self]
  · obtain ⟨nb, hnb⟩ := Option.isSome_iff_exists.mp
      (alookup_add_vertex_self (g := g.add_vertex u) (v := v))
    simp [alookup_setWeight_self, alookup_setWeight_ne hvu, hnb,
      alookup_aupd_self]

/-- C5: after `add_edge(u, v, w)`, `get_neighbors(u)[v] == w` and
`get_neighbors(v)[u] == w`, silently overwriting any previous weight for the
pair in both directions; in particular `add_edge(u, v, w1)` then
`add_edge(u, v, w2)` leaves the weight as `w2` in both directions. -/
theorem claim5_add_edge_symmetric_overwrite (g : Graph α W) (u v : α) (w : W) :
    (alookup ((g.add_edge u v w).get_neighbors u) v = some w ∧
     alookup ((g.add_edge u v w).get_neighbors v) u = some w) ∧
    ∀ w1 w2 : W,
      alookup (((g.add_edge u v w1).add_edge u v w2).get_neighbors u) v =
          some w2 ∧
        alookup (((g.add_edge u v w1).add_edge u v w2).get_neighbors v) u =
          some w2 :=
  ⟨⟨alookup_add_edge_fst g u v w, alookup_add_edge_snd g u v w⟩,
    fun w1 w2 =>
      ⟨alookup_add_edge_fst (g.add_edge u v w1) u v w2,
       alookup_add_edge_snd (g.add_edge u v w1) u v w2⟩⟩

/-- Witness for C9 at a concrete graph: the one-vertex graph `gNeg` already
contains `"A"`, and adding it changes nothing. -/
theorem claim9_witness :
    (alookup gNeg.vertices vA).isSome ∧
      gNeg.add_vertex vA = gNeg ∧
      (gNeg.add_vertex vA).add_vertex vA = gNeg.add_vertex vA :=
  ⟨by decide, (claim9_add_vertex_idempotent gNeg vA).1 (by decide),
    (claim9_add_vertex_idempotent gNeg vA).2⟩


/-! ### Error classification -/

theorem dijkstraLoop_nil {g : Graph α W} {fuel : ℕ} {st : St α W} :
    dijkstraLoop g fuel [] st = Except.ok (st, 0) := by
  cases fuel <;> rfl

theorem dijkstraLoop_cons {g : Graph α W} {fuel : ℕ} {u : α} {us : List α}
    {st : St α W} :
    dijkstraLoop g (fuel + 1) (u :: us) st =
      match relaxList st (pyMin st.distances u us)
          (g.get_neighbors (pyMin st.distances u us)) with
      | Except.error e => Except.error e
      | Except.ok st2 =>
        match dijkstraLoop g fuel ((u :: us).erase (pyMin st.distances u us))
            st2 with
        | Except.error e => Except.error e
        | Except.ok (st3, n) => Except.ok (st3, n + 1) := rfl

theorem dijkstra_eq_loop {g : Graph α W} {source : α}
    (h : (alookup g.vertices source).isSome) :
    dijkstra g source =
      match dijkstraLoop g (keyList g.vertices).length (keyList g.vertices)
          (initSt g source) with
      | Except.error e => Except.error e
      | Except.ok (st, _) => Except.ok (st.distances, st.predecessors) := by
  unfold dijkstra initSt
  rw [if_pos h]

theorem dijkstra_of_absent {g : Graph α W} {source : α}
    (h : alookup g.vertices source = none) :
    dijkstra g source = Except.error Err.valueError := by
  unfold dijkstra
  rw [if_neg (by simp [h])]

theorem relaxOne_error {st : St α W} {current : α} {nw : α × W} {e : Err}
    (h : relaxOne st current nw = Except.error e) : e = Err.keyError := by
  unfold relaxOne at h
  rcases h1 : alookup st.distances current with _ | dc <;>
    rcases h2 : alookup st.distances nw.1 with _ | dn <;>
      simp [h1, h2] at h <;> try exact h.symm
  split_ifs at h <;> simp at h

theorem relaxList_error {st : St α W} {current : α} {l : List (α × W)} {e : Err}
    (h : relaxList st current l = Except.error e) : e = Err.keyError := by
  induction l generalizing st with
  | nil => simp [relaxList] at h
  | cons nw rest ih =>
    unfold relaxList at h
    rcases hr : relaxOne st current nw with e2 | st2 <;> rw [hr] at h
    · cases h
      exact relaxOne_error hr
    · exact ih h

theorem dijkstraLoop_error {g : Graph α W} {fuel : ℕ} {unvisited : List α}
    {st : St α W} {e : Err}
    (h : dijkstraLoop g fuel unvisited st = Except.error e) :
    e = Err.keyError := by
  induction fuel generalizing unvisited st with
  | zero => cases unvisited <;> simp [dijkstraLoop] at h
  | succ fuel ih =>
    cases unvisited with
    | nil => simp [dijkstraLoop_nil] at h
    | cons u us =>
      rw [dijkstraLoop_cons] at h
      rcases hr : relaxList st (pyMin st.distances u us)
          (g.get_neighbors (pyMin st.distances u us)) with e2 | st2 <;>
        simp only [hr] at h
      · cases h
        exact relaxList_error hr
      · rcases hl : dijkstraLoop g fuel
            ((u :: us).erase (pyMin st.distances u us)) st2 with e3 | p <;>
          simp only [hl] at h
        · cases h
          exact ih hl
        · obtain ⟨st3, n⟩ := p
          simp at h

theorem dijkstra_error {g : Graph α W} {source : α} {e : Err}
    (h : dijkstra g source = Except.error e) :
    e = Err.valueError ∨ e = Err.keyError := by
  by_cases hs : (alookup g.vertices source).isSome
  · rw [dijkstra_eq_loop hs] at h
    rcases hl : dijkstraLoop g (keyList g.vertices).length (keyList g.vertices)
        (initSt g source) with e2 | p <;> simp only [hl] at h
    · cases h
      exact Or.inr (dijkstraLoop_error hl)
    · obtain ⟨st, n⟩ := p
      simp at h
  · rw [dijkstra_of_absent (Option.not_isSome_iff_eq_none.mp hs)] at h
    cases h
    exact Or.inl rfl

theorem dijkstra_not_valueError {g : Graph α W} {source : α}
    (hs : (alookup g.vertices source).isSome) :
    dijkstra g source ≠ Except.error Err.valueError := by
  intro h
  rw [dijkstra_eq_loop hs] at h
  rcases hl : dijkstraLoop g (keyList g.vertices).length (keyList g.vertices)
      (initSt g source) with e2 | p <;> simp only [hl] at h
  · cases h
    cases dijkstraLoop_error hl
  · obtain ⟨st, n⟩ := p
    simp at h

/-- C6: on the full dynamically-checked entry point, the result is
`TypeError` exactly when the argument is not a `Graph` instance, `ValueError`
exactly when the argument is a `Graph` whose vertex set does not contain the
source, and in every case the call either produces the full
`(distances, predecessors)` pair or an error with no partial result. -/
theorem claim6_error_behavior (arg : PyArg α W) (source : α) :
    (dijkstraDyn arg source = Except.error Err.typeError ↔
      arg = PyArg.nonGraph) ∧
    (dijkstraDyn arg source = Except.error Err.valueError ↔
      ∃ g : Graph α W, arg = PyArg.graphArg g ∧
        alookup g.vertices source = none) ∧
    ((∃ d p, dijkstraDyn arg source = Except.ok (d, p)) ∨
      ∃ e, dijkstraDyn arg source = Except.error e) := by
  refine ⟨?_, ?_, ?_⟩
  · cases arg with
    | nonGraph => simp [dijkstraDyn]
    | graphArg g =>
      simp only [dijkstraDyn]
      constructor
      · intro h
        rcases dijkstra_error h with h2 | h2 <;> cases h2
      · intro h
        cases h
  · cases arg with
    | nonGraph => simp [dijkstraDyn]
    | graphArg g =>
      simp only [dijkstraDyn]
      constructor
      · intro h
        refine ⟨g, rfl, ?_⟩
        by_cases hs : (alookup g.vertices source).isSome
        · exact absurd h (dijkstra_not_valueError hs)
        · exact Option.not_isSome_iff_eq_none.mp hs
      · rintro ⟨g2, hg, hnone⟩
        cases hg
        exact dijkstra_of_absent hnone
  · rcases hr : dijkstraDyn arg source with e | p
    · exact Or.inr ⟨e, rfl⟩
    · obtain ⟨d, p2⟩ := p
      exact Or.inl ⟨d, p2, rfl⟩

/-! ### Small-step characterizations and the generic loop invariant -/

theorem dlt_fin_fin {a b : W} : dlt (Dist.fin a) (Dist.fin b) = true ↔ a < b := by
  simp [dlt]

theorem dlt_inf_left {d : Dist W} : dlt Dist.inf d = false := rfl

theorem addD_inf {w : W} : addD Dist.inf w = Dist.inf := rfl

theorem addD_fin {a w : W} : addD (Dist.fin a) w = Dist.fin (a + w) := rfl

theorem alookup_eq_some_mem {l : List (α × β)} {k : α} {b : β}
    (h : alookup l k = some b) : (k, b) ∈ l := by
  induction l with
  | nil => simp [alookup] at h
  | cons p t ih =>
    obtain ⟨a, c⟩ := p
    by_cases hak : a = k
    · subst hak
      rw [alookup_cons, if_pos rfl] at h
      cases h
      exact List.mem_cons_self _ _
    · rw [alookup_cons, if_neg hak] at h
      exact List.mem_cons_of_mem _ (ih h)

theorem mem_get_neighbors {g : Graph α W} {cur : α} {nw : α × W}
    (h : nw ∈ g.get_neighbors cur) :
    ∃ nbrs, alookup g.vertices cur = some nbrs ∧ (cur, nbrs) ∈ g.vertices ∧
      nw ∈ nbrs := by
  unfold Graph.get_neighbors at h
  cases hl : alookup g.vertices cur with
  | none => rw [hl] at h; simp at h
  | some nbrs =>
    rw [hl] at h
    exact ⟨nbrs, rfl, alookup_eq_some_mem hl, h⟩

/-- Either a relaxation leaves the state unchanged, or it performs the strict
improvement recorded in the source. -/
theorem relaxOne_ok_cases {st : St α W} {current : α} {nw : α × W} {st2 : St α W}
    (h : relaxOne st current nw = Except.ok st2) :
    st2 = st ∨
      ∃ dc dn, alookup st.distances current = some dc ∧
        alookup st.distances nw.1 = some dn ∧
        dlt (addD dc nw.2) dn = true ∧
        st2 = ⟨aupd st.distances nw.1 (addD dc nw.2),
               aupd st.predecessors nw.1 (some current)⟩ := by
  unfold relaxOne at h
  rcases h1 : alookup st.distances current with _ | dc <;>
    rcases h2 : alookup st.distances nw.1 with _ | dn <;>
      simp only [h1, h2] at h <;> try cases h
  split_ifs at h with hcmp <;> cases h
  · exact Or.inr ⟨dc, dn, rfl, rfl, hcmp, rfl⟩
  · exact Or.inl rfl

/-- State predicates preserved by every successful relaxation from the
neighbor list `l` are preserved by the whole `for` loop over `l`. -/
theorem relaxList_inv {P : St α W → Prop} {current : α} {l : List (α × W)}
    (hstep : ∀ st nw, nw ∈ l → P st →
      ∀ st2, relaxOne st current nw = Except.ok st2 → P st2) :
    ∀ st st2, P st → relaxList st current l = Except.ok st2 → P st2 := by
  induction l with
  | nil =>
    intro st st2 hP h
    rw [relaxList] at h
    cases h
    exact hP
  | cons nw rest ih =>
    intro st st2 hP h
    rw [relaxList] at h
    rcases hr : relaxOne st current nw with e | st1 <;> simp only [hr] at h
    · cases h
    · exact ih (fun st nw2 hm => hstep st nw2 (List.mem_cons_of_mem _ hm)) st1
        st2 (hstep st nw (List.mem_cons_self _ _) hP st1 hr) h

/-- State predicates preserved by every successful relaxation round are
preserved by the whole `while` loop. -/
theorem dijkstraLoop_inv {g : Graph α W} {P : St α W → Prop}
    (hstep : ∀ st cur st2, P st →
      relaxList st cur (g.get_neighbors cur) = Except.ok st2 → P st2) :
    ∀ fuel unvisited (st st3 : St α W) (n : ℕ), P st →
      dijkstraLoop g fuel unvisited st = Except.ok (st3, n) → P st3 := by
  intro fuel
  induction fuel with
  | zero =>
    intro unvisited st st3 n hP h
    cases unvisited <;> rw [dijkstraLoop] at h <;> cases h <;> exact hP
  | succ fuel ih =>
    intro unvisited st st3 n hP h
    cases unvisited with
    | nil =>
      rw [dijkstraLoop_nil] at h
      cases h
      exact hP
    | cons u us =>
      rw [dijkstraLoop_cons] at h
      rcases hr : relaxList st (pyMin st.distances u us)
          (g.get_neighbors (pyMin st.distances u us)) with e | st2 <;>
        simp only [hr] at h
      · cases h
      · rcases hl : dijkstraLoop g fuel
            ((u :: us).erase (pyMin st.distances u us)) st2 with e | p <;>
          simp only [hl] at h
        · cases h
        · obtain ⟨st4, m⟩ := p
          cases h
          exact ih _ st2 st4 m (hstep st _ st2 hP hr) hl

/-- Transfer of a state invariant to the maps returned by `dijkstra`. -/
theorem dijkstra_inv {g : Graph α W} {source : α} {P : St α W → Prop}
    {d : List (α × Dist W)} {p : List (α × Option α)}
    (hstep : ∀ st cur st2, P st →
      relaxList st cur (g.get_neighbors cur) = Except.ok st2 → P st2)
    (hinit : P (initSt g source))
    (h : dijkstra g source = Except.ok (d, p)) : P ⟨d, p⟩ := by
  by_cases hs : (alookup g.vertices source).isSome
  · rw [dijkstra_eq_loop hs] at h
    rcases hl : dijkstraLoop g (keyList g.vertices).length (keyList g.vertices)
        (initSt g source) with e | q <;> simp only [hl] at h
    · cases h
    · obtain ⟨st, n⟩ := q
      obtain ⟨sd, sp⟩ := st
      cases h
      exact dijkstraLoop_inv hstep _ _ _ _ _ hinit hl
  · rw [dijkstra_of_absent (Option.not_isSome_iff_eq_none.mp hs)] at h
    cases h

/-! ### C3: the source entries of the returned maps -/

theorem sourceZeroInv_init {g : Graph α R} {source : α}
    (hs : (alookup g.vertices source).isSome) :
    SourceZeroInv source (initSt g source) := by
  have hsmem : source ∈ keyList g.vertices := alookup_isSome_iff_mem.mp hs
  refine ⟨alookup_aupd_self, ?_, ?_⟩
  · unfold initSt
    simp only [alookup_map_const, hsmem, if_pos]
  · intro v q hv
    unfold initSt at hv
    by_cases hvs : v = source
    · subst hvs
      rw [alookup_aupd_self] at hv
      cases hv
      exact le_refl 0
    · rw [alookup_aupd_ne hvs, alookup_map_const] at hv
      split_ifs at hv <;> cases hv

theorem sourceZeroInv_step {g : Graph α R} {source : α}
    (hw : NonnegWeights g) :
    ∀ (st : St α R) cur st2, SourceZeroInv source st →
      relaxList st cur (g.get_neighbors cur) = Except.ok st2 →
      SourceZeroInv source st2 := by
  intro st cur st2 hP h
  refine relaxList_inv (fun st nw hmem hP st2 hone => ?_) st st2 hP h
  obtain ⟨nbrs, _, hmem2, hnw⟩ := mem_get_neighbors hmem
  have hwnn : 0 ≤ nw.2 := hw _ hmem2 _ hnw
  rcases relaxOne_ok_cases hone with rfl | ⟨dc, dn, hdc, hdn, hcmp, rfl⟩
  · exact hP
  obtain ⟨hP1, hP2, hP3⟩ := hP
  cases dc with
  | inf => rw [addD_inf] at hcmp; rw [dlt_inf_left] at hcmp; cases hcmp
  | fin qc =>
    have hqc : 0 ≤ qc := hP3 _ _ hdc
    have hnewnn : 0 ≤ qc + nw.2 := add_nonneg hqc hwnn
    have hns : nw.1 ≠ source := by
      intro hh
      subst hh
      rw [hdn] at hP1
      cases hP1
      rw [addD_fin, dlt_fin_fin] at hcmp
      exact absurd hcmp (not_lt.mpr hnewnn)
    refine ⟨?_, ?_, ?_⟩
    · simpa [alookup_aupd_ne (Ne.symm hns)] using hP1
    · simpa [alookup_aupd_ne (Ne.symm hns)] using hP2
    · intro v q hv
      by_cases hvn : v = nw.1
      · subst hvn
        rw [alookup_aupd_self] at hv
        rw [addD_fin] at hv
        cases hv
        exact hnewnn
      · rw [alookup_aupd_ne hvn] at hv
        exact hP3 _ _ hv

/-- C3 counterexample: on the API-built one-vertex graph with the negative
self-loop `add_edge("A", "A", -1)`, `dijkstra(g, "A")` returns
`distances["A"] = -1` and `predecessors["A"] = "A"`, so the claimed
`distances[s] == 0` and `predecessors[s] == none` both fail at `s = "A"`. -/
theorem claim3_counterexample :
    dijkstra gNeg vA =
      Except.ok ([(vA, Dist.fin (-1))], [(vA, some vA)]) ∧
    ¬(alookup [((vA : String), Dist.fin (-1 : ℤ))] vA = some (Dist.fin 0) ∧
      alookup [((vA : String), (some vA : Option String))] vA = some none) :=
  ⟨by decide, by decide⟩

/-- C3 (amended): for every graph all of whose edge weights are non-negative
and every source, a successful `dijkstra(G, s)` run returns
`distances[s] == 0` and `predecessors[s] == none`. -/
theorem claim3_amended_source_entries {g : Graph α R} {source : α}
    {d : List (α × Dist R)} {p : List (α × Option α)}
    (hw : NonnegWeights g) (h : dijkstra g source = Except.ok (d, p)) :
    alookup d source = some (Dist.fin 0) ∧ alookup p source = some none := by
  have hs : (alookup g.vertices source).isSome := by
    by_contra hs
    rw [dijkstra_of_absent (Option.not_isSome_iff_eq_none.mp hs)] at h
    cases h
  have := dijkstra_inv (sourceZeroInv_step hw) (sourceZeroInv_init hs) h
  exact ⟨this.1, this.2.1⟩

/-- Witness for C3 (amended) on the literal example graph. -/
theorem claim3_amended_witness :
    NonnegWeights gEx ∧
      (∃ d p, dijkstra gEx vA = Except.ok (d, p) ∧
        alookup d vA = some (Dist.fin 0) ∧ alookup p vA = some none) := by
  have hrun : dijkstra gEx vA =
      Except.ok
        ([(vA, Dist.fin 0), (vB, Dist.fin 3), (vC, Dist.fin 2),
          (vD, Dist.fin 8), (vE, Dist.fin 10), (vF, Dist.fin 13)],
         [(vA, none), (vB, some vC), (vC, some vA), (vD, some vB),
          (vE, some vD), (vF, some vE)]) := by decide
  have hw : NonnegWeights gEx := by decide
  exact ⟨hw, _, _, hrun, claim3_amended_source_entries hw hrun⟩

/-! ### Well-formedness of API-built graphs, termination, and absence of
`KeyError` (C7, C10) -/

theorem mem_aupd {l : List (α × β)} {k : α} {v : β} {q : α × β}
    (h : q ∈ aupd l k v) : q ∈ l ∨ q = (k, v) := by
  induction l with
  | nil => simpa [aupd] using h
  | cons p t ih =>
    obtain ⟨a, b⟩ := p
    by_cases hak : a = k
    · subst hak
      rw [aupd, if_pos rfl] at h
      rcases List.mem_cons.mp h with h | h
      · exact Or.inr h
      · exact Or.inl (List.mem_cons_of_mem _ h)
    · rw [aupd, if_neg hak] at h
      rcases List.mem_cons.mp h with h | h
      · exact Or.inl (h ▸ List.mem_cons_self _ _)
      · rcases ih h with h2 | h2
        · exact Or.inl (List.mem_cons_of_mem _ h2)
        · exact Or.inr h2

theorem keyList_aupd_nodup {l : List (α × β)} {k : α} {v : β}
    (h : (keyList l).Nodup) : (keyList (aupd l k v)).Nodup := by
  by_cases hm : k ∈ keyList l
  · rwa [keyList_aupd_of_mem hm]
  · rw [keyList_aupd_of_not_mem hm]
    simpa [List.nodup_append] using ⟨h, hm⟩

theorem wellFormed_empty : WellFormed (Graph.empty : Graph α W) := by
  refine ⟨by simp [Graph.empty, keyList_nil], ?_, ?_⟩ <;>
    intro p hp <;> simp [Graph.empty] at hp

theorem wellFormed_add_vertex {g : Graph α W} (hwf : WellFormed g) (v : α) :
    WellFormed (g.add_vertex v) := by
  unfold Graph.add_vertex
  by_cases hv : (alookup g.vertices v).isSome
  · rwa [if_pos hv]
  · rw [if_neg hv]
    have hnm : v ∉ keyList g.vertices := fun hm =>
      hv (alookup_isSome_iff_mem.mpr hm)
    refine ⟨?_, ?_, ?_⟩
    · rw [keyList_append]
      simpa [List.nodup_append, keyList_cons, keyList_nil] using
        ⟨hwf.nodupKeys, hnm⟩
    · intro p hp q hq
      rw [keyList_append]
      rcases List.mem_append.mp hp with hp | hp
      · exact List.mem_append_left _ (hwf.closed p hp q hq)
      · simp at hp
        rw [hp] at hq
        simp at hq
    · intro p hp
      rcases List.mem_append.mp hp with hp | hp
      · exact hwf.nodupNbrs p hp
      · simp at hp
        simp [hp, keyList_nil]

theorem mem_setWeight {l : List (α × List (α × W))} {u v : α} {w : W}
    {p : α × List (α × W)} (h : p ∈ setWeight l u v w) :
    ∃ p0 ∈ l, p = if p0.1 = u then (p0.1, aupd p0.2 v w) else p0 := by
  unfold setWeight at h
  obtain ⟨p0, hp0, hval⟩ := List.mem_map.mp h
  exact ⟨p0, hp0, hval.symm⟩

theorem wellFormed_setWeight {g2 : Graph α W} {u v : α} {w : W}
    (hwf : WellFormed g2) (hv : v ∈ keyList g2.vertices) :
    WellFormed ⟨setWeight g2.vertices u v w⟩ := by
  refine ⟨by simpa [keyList_setWeight] using hwf.nodupKeys, ?_, ?_⟩
  · intro p hp q hq
    obtain ⟨p0, hp0, hpval⟩ := mem_setWeight hp
    rw [show keyList (setWeight g2.vertices u v w) = keyList g2.vertices from
      keyList_setWeight]
    by_cases hpu : p0.1 = u
    · rw [if_pos hpu] at hpval
      rw [hpval] at hq
      simp only at hq
      rcases mem_aupd hq with hq2 | hq2
      · exact hwf.closed p0 hp0 q hq2
      · rw [hq2]
        exact hv
    · rw [if_neg hpu] at hpval
      rw [hpval] at hq
      exact hwf.closed p0 hp0 q hq
  · intro p hp
    obtain ⟨p0, hp0, hpval⟩ := mem_setWeight hp
    by_cases hpu : p0.1 = u
    · rw [if_pos hpu] at hpval
      rw [hpval]
      exact keyList_aupd_nodup (hwf.nodupNbrs p0 hp0)
    · rw [if_neg hpu] at hpval
      rw [hpval]
      exact hwf.nodupNbrs p0 hp0

theorem wellFormed_add_edge {g : Graph α W} (hwf : WellFormed g) (u v : α)
    (w : W) : WellFormed (g.add_edge u v w) := by
  unfold Graph.add_edge
  have hwf2 : WellFormed ((g.add_vertex u).add_vertex v) :=
    wellFormed_add_vertex (wellFormed_add_vertex hwf u) v
  have hu : u ∈ keyList ((g.add_vertex u).add_vertex v).vertices :=
    alookup_isSome_iff_mem.mp isSome_add_vertex_add_vertex_left
  have hv : v ∈ keyList ((g.add_vertex u).add_vertex v).vertices :=
    alookup_isSome_iff_mem.mp alookup_add_vertex_self
  have hwf3 :
      WellFormed (⟨setWeight ((g.add_vertex u).add_vertex v).vertices u v w⟩ :
        Graph α W) :=
    wellFormed_setWeight hwf2 hv
  have hu3 : u ∈ keyList (setWeight ((g.add_vertex u).add_vertex v).vertices
      u v w) := by
    rwa [keyList_setWeight]
  exact wellFormed_setWeight hwf3 hu3

/-- Every graph built through the public API is well-formed: distinct vertex
keys, distinct neighbor keys, and every neighbor is itself a vertex. -/
theorem built_wellFormed {g : Graph α W} (hb : Built g) : WellFormed g := by
  induction hb with
  | empty => exact wellFormed_empty
  | addVertex v _ ih => exact wellFormed_add_vertex ih v
  | addEdge u v w _ ih => exact wellFormed_add_edge ih u v w

theorem pyMin_mem {d : List (α × Dist W)} :
    ∀ (best : α) (xs : List α), pyMin d best xs ∈ best :: xs := by
  intro best xs
  induction xs generalizing best with
  | nil => simp [pyMin]
  | cons x xs ih =>
    rw [pyMin]
    split_ifs
    · exact List.mem_cons_of_mem _ (ih x)
    · rcases List.mem_cons.mp (ih best) with h | h
      · rw [h]
        exact List.mem_cons_self _ _
      · exact List.mem_cons_of_mem _ (List.mem_cons_of_mem _ h)

theorem relaxOne_ok_of_mem {st : St α W} {cur : α} {nw : α × W}
    (hcur : cur ∈ keyList st.distances) (hn : nw.1 ∈ keyList st.distances)
    (hnp : nw.1 ∈ keyList st.predecessors) :
    ∃ st2, relaxOne st cur nw = Except.ok st2 ∧
      keyList st2.distances = keyList st.distances ∧
      keyList st2.predecessors = keyList st.predecessors := by
  obtain ⟨dc, hdc⟩ := Option.isSome_iff_exists.mp
    (alookup_isSome_iff_mem.mpr hcur)
  obtain ⟨dn, hdn⟩ := Option.isSome_iff_exists.mp
    (alookup_isSome_iff_mem.mpr hn)
  unfold relaxOne
  rw [hdc, hdn]
  dsimp only
  by_cases hcmp : dlt (addD dc nw.2) dn = true
  · rw [if_pos hcmp]
    exact ⟨_, rfl, keyList_aupd_of_mem hn, keyList_aupd_of_mem hnp⟩
  · rw [if_neg hcmp]
    exact ⟨st, rfl, rfl, rfl⟩

theorem relaxList_ok {g : Graph α W} {cur : α} {l : List (α × W)}
    (hcur : cur ∈ keyList g.vertices)
    (hl : ∀ nw ∈ l, nw.1 ∈ keyList g.vertices) :
    ∀ st : St α W, KeysInv g st →
      ∃ st2, relaxList st cur l = Except.ok st2 ∧ KeysInv g st2 := by
  induction l with
  | nil =>
    intro st hk
    exact ⟨st, rfl, hk⟩
  | cons nw rest ih =>
    intro st hk
    obtain ⟨st1, hst1, hd1, hp1⟩ := relaxOne_ok_of_mem
      (hk.1 ▸ hcur) (hk.1 ▸ hl nw (List.mem_cons_self _ _))
      (hk.2 ▸ hl nw (List.mem_cons_self _ _))
    obtain ⟨st2, hst2, hk2⟩ := ih (fun nw2 hm => hl nw2
      (List.mem_cons_of_mem _ hm)) st1 ⟨hd1.trans hk.1, hp1.trans hk.2⟩
    refine ⟨st2, ?_, hk2⟩
    rw [relaxList, hst1]
    exact hst2

theorem get_neighbors_closed {g : Graph α W}
    (hcl : ∀ p ∈ g.vertices, ∀ q ∈ p.2, q.1 ∈ keyList g.vertices) (cur : α) :
    ∀ nw ∈ g.get_neighbors cur, nw.1 ∈ keyList g.vertices := by
  intro nw hm
  obtain ⟨nbrs, _, hmem, hnw⟩ := mem_get_neighbors hm
  exact hcl _ hmem _ hnw

/-- With a closed adjacency structure, the main loop never raises `KeyError`,
consumes exactly one unvisited vertex per iteration, and therefore performs
exactly `|unvisited|` iterations when given that much fuel. -/
theorem dijkstraLoop_ok {g : Graph α W}
    (hcl : ∀ p ∈ g.vertices, ∀ q ∈ p.2, q.1 ∈ keyList g.vertices) :
    ∀ (fuel : ℕ) (unvisited : List α) (st : St α W),
      unvisited.length ≤ fuel → (∀ x ∈ unvisited, x ∈ keyList g.vertices) →
      KeysInv g st →
      ∃ st3, dijkstraLoop g fuel unvisited st =
          Except.ok (st3, unvisited.length) ∧ KeysInv g st3 := by
  intro fuel
  induction fuel with
  | zero =>
    intro unvisited st hlen _ hk
    rw [List.length_eq_zero.mp (Nat.le_zero.mp hlen)]
    exact ⟨st, dijkstraLoop_nil, hk⟩
  | succ fuel ih =>
    intro unvisited st hlen hsub hk
    cases unvisited with
    | nil => exact ⟨st, dijkstraLoop_nil, hk⟩
    | cons u us =>
      have hcurmem : pyMin st.distances u us ∈ u :: us := pyMin_mem u us
      have hcur : pyMin st.distances u us ∈ keyList g.vertices :=
        hsub _ hcurmem
      obtain ⟨st2, hst2, hk2⟩ := relaxList_ok hcur
        (get_neighbors_closed hcl _) st hk
      have herase : ((u :: us).erase (pyMin st.distances u us)).length =
          us.length := by
        rw [List.length_erase_of_mem hcurmem]
        rfl
      obtain ⟨st3, hst3, hk3⟩ := ih ((u :: us).erase (pyMin st.distances u us))
        st2 (by rw [herase]; exact Nat.lt_succ_iff.mp hlen)
        (fun x hx => hsub x (List.mem_of_mem_erase hx)) hk2
      refine ⟨st3, ?_, hk3⟩
      rw [herase] at hst3
      rw [dijkstraLoop_cons, hst2]
      simp only [hst3, List.length_cons]

theorem keysInv_init {g : Graph α W} {source : α}
    (hs : (alookup g.vertices source).isSome) : KeysInv g (initSt g source) := by
  constructor
  · unfold initSt
    simp only
    rw [keyList_aupd_of_mem, keyList_map_const]
    rw [keyList_map_const]
    exact alookup_isSome_iff_mem.mp hs
  · unfold initSt
    simp only
    rw [keyList_map_const]

/-- With a closed adjacency structure and a present source, `dijkstra`
produces a full result. -/
theorem dijkstra_ok_of_closed {g : Graph α W} {source : α}
    (hcl : ∀ p ∈ g.vertices, ∀ q ∈ p.2, q.1 ∈ keyList g.vertices)
    (hs : (alookup g.vertices source).isSome) :
    ∃ st, dijkstraLoop g (keyList g.vertices).length (keyList g.vertices)
        (initSt g source) = Except.ok (st, (keyList g.vertices).length) ∧
      dijkstra g source = Except.ok (st.distances, st.predecessors) := by
  obtain ⟨st3, hrun, _⟩ := dijkstraLoop_ok hcl (keyList g.vertices).length
    (keyList g.vertices) (initSt g source) (le_refl _) (fun x hx => hx)
    (keysInv_init hs)
  refine ⟨st3, hrun, ?_⟩
  rw [dijkstra_eq_loop hs, hrun]

/-- C10: every graph built from the empty graph through `add_vertex` and
`add_edge` satisfies the closure invariant (every neighbor key is a vertex),
and on such graphs `dijkstra` with a present source never hits the
missing-key branch: it returns the full pair. -/
theorem claim10_closure_no_keyerror (g : Graph α W) (hb : Built g) :
    (∀ p ∈ g.vertices, ∀ q ∈ p.2, q.1 ∈ keyList g.vertices) ∧
      ∀ source, source ∈ keyList g.vertices →
        ∃ d p, dijkstra g source = Except.ok (d, p) := by
  have hwf := built_wellFormed hb
  refine ⟨hwf.closed, fun source hsm => ?_⟩
  obtain ⟨st, _, hok⟩ := dijkstra_ok_of_closed hwf.closed
    (alookup_isSome_iff_mem.mpr hsm)
  exact ⟨_, _, hok⟩

/-- Witness for C10 on an API-built graph. -/
theorem claim10_witness :
    Built gDisc ∧
      ((∀ p ∈ gDisc.vertices, ∀ q ∈ p.2, q.1 ∈ keyList gDisc.vertices) ∧
        ∀ source, source ∈ keyList gDisc.vertices →
          ∃ d p, dijkstra gDisc source = Except.ok (d, p)) :=
  ⟨Built.addVertex vB (Built.addVertex vA Built.empty),
    claim10_closure_no_keyerror gDisc
      (Built.addVertex vB (Built.addVertex vA Built.empty))⟩

/-- C7: for every (finite, well-formed) graph and present source, `dijkstra`'s
main loop terminates after exactly `|V|` iterations — each iteration removes
exactly one vertex from the unvisited list — and the full result is
returned; the graph may be disconnected. -/
theorem claim7_terminates_exact_iterations (g : Graph α W) (source : α)
    (hcl : ∀ p ∈ g.vertices, ∀ q ∈ p.2, q.1 ∈ keyList g.vertices)
    (hs : (alookup g.vertices source).isSome) :
    (∀ (st : St α W) (u : α) (us : List α),
      ((u :: us).erase (pyMin st.distances u us)).length = us.length) ∧
      ∃ st, dijkstraLoop g (keyList g.vertices).length (keyList g.vertices)
          (initSt g source) =
            Except.ok (st, (keyList g.vertices).length) ∧
        dijkstra g source = Except.ok (st.distances, st.predecessors) := by
  refine ⟨fun st u us => ?_, dijkstra_ok_of_closed hcl hs⟩
  rw [List.length_erase_of_mem (pyMin_mem u us)]
  rfl

/-- Witness for C7 on the disconnected two-vertex graph: the loop performs
exactly two iterations. -/
theorem claim7_witness :
    (∀ p ∈ gDisc.vertices, ∀ q ∈ p.2, q.1 ∈ keyList gDisc.vertices) ∧
      (alookup gDisc.vertices vA).isSome ∧
      ∃ st, dijkstraLoop gDisc (keyList gDisc.vertices).length
          (keyList gDisc.vertices) (initSt gDisc vA) =
            Except.ok (st, (keyList gDisc.vertices).length) ∧
        dijkstra gDisc vA = Except.ok (st.distances, st.predecessors) := by
  have hcl : ∀ p ∈ gDisc.vertices, ∀ q ∈ p.2, q.1 ∈ keyList gDisc.vertices :=
    by decide
  have hs : (alookup gDisc.vertices vA).isSome := by decide
  exact ⟨hcl, hs, (claim7_terminates_exact_iterations gDisc vA hcl hs).2⟩

/-! ### C4: unreachable vertices keep `inf` and `none` -/

theorem mem_keyList_aupd {l : List (α × β)} {k x : α} {v : β}
    (h : x ∈ keyList l) : x ∈ keyList (aupd l k v) := by
  by_cases hm : k ∈ keyList l
  · rwa [keyList_aupd_of_mem hm]
  · rw [keyList_aupd_of_not_mem hm]
    exact List.mem_append_left _ h

theorem walk_snoc {g : Graph α R} {s v x : α} {p : List α} {w wt : R}
    (hw : Walk g s v p w) (he : edgeWeight g v x = some wt) :
    Walk g s x (p ++ [x]) (w + wt) := by
  induction hw with
  | nil v0 => simpa using Walk.cons he (Walk.nil x)
  | cons he2 hw2 ih => simpa [add_assoc] using Walk.cons he2 (ih he)

theorem reachable_snoc {g : Graph α R} {s v x : α} {wt : R}
    (hr : Reachable g s v) (he : edgeWeight g v x = some wt) :
    Reachable g s x := by
  obtain ⟨p, w, hw⟩ := hr
  exact ⟨p ++ [x], w + wt, walk_snoc hw he⟩

theorem walk_inversion {g : Graph α W} {s v : α} {p : List α} {w : W}
    (hw : Walk g s v p w) :
    (s = v ∧ p = [s] ∧ w = 0) ∨
      ∃ x wt p2 w2, edgeWeight g s x = some wt ∧ Walk g x v p2 w2 ∧
        p = s :: p2 ∧ w = wt + w2 := by
  cases hw with
  | nil => exact Or.inl ⟨rfl, rfl, rfl⟩
  | cons he hw2 => exact Or.inr ⟨_, _, _, _, he, hw2, rfl, rfl⟩

theorem not_reachable_of_no_edges {g : Graph α W} {s v : α}
    (hne : g.get_neighbors s = []) (hsv : s ≠ v) : ¬Reachable g s v := by
  rintro ⟨p, w, hw⟩
  rcases walk_inversion hw with ⟨h1, _, _⟩ | ⟨x, wt, p2, w2, he, _, _, _⟩
  · exact hsv h1
  · rw [edgeWeight, hne] at he
    simp [alookup] at he

theorem unreachInv_init {g : Graph α R} {source : α} :
    UnreachInv g source (initSt g source) := by
  refine ⟨?_, ?_, ?_⟩
  · intro x hx
    unfold initSt
    constructor
    · apply mem_keyList_aupd
      rwa [keyList_map_const]
    · simp only
      rwa [keyList_map_const]
  · intro v q hv
    unfold initSt at hv
    simp only at hv
    by_cases hvs : v = source
    · subst hvs
      exact ⟨[v], 0, Walk.nil v⟩
    · rw [alookup_aupd_ne hvs, alookup_map_const] at hv
      split_ifs at hv <;> cases hv
  · intro v u hv
    unfold initSt at hv
    simp only at hv
    rw [alookup_map_const] at hv
    split_ifs at hv <;> cases hv

theorem unreachInv_step {g : Graph α R} {source : α} :
    ∀ (st : St α R) cur st2, UnreachInv g source st →
      relaxList st cur (g.get_neighbors cur) = Except.ok st2 →
      UnreachInv g source st2 := by
  intro st cur st2 hP h
  refine relaxList_inv (fun st nw hmem hP st2 hone => ?_) st st2 hP h
  rcases relaxOne_ok_cases hone with rfl | ⟨dc, dn, hdc, hdn, hcmp, rfl⟩
  · exact hP
  obtain ⟨hK, hD, hPr⟩ := hP
  cases dc with
  | inf =>
    rw [addD_inf, dlt_inf_left] at hcmp
    cases hcmp
  | fin qc =>
    have hreachcur : Reachable g source cur := hD _ _ hdc
    have hn1 : nw.1 ∈ keyList (g.get_neighbors cur) := by
      unfold keyList
      exact List.mem_map.mpr ⟨nw, hmem, rfl⟩
    obtain ⟨wt, hwt⟩ := Option.isSome_iff_exists.mp
      (alookup_isSome_iff_mem.mpr hn1)
    have hreach : Reachable g source nw.1 := reachable_snoc hreachcur hwt
    refine ⟨?_, ?_, ?_⟩
    · intro x hx
      obtain ⟨hx1, hx2⟩ := hK x hx
      exact ⟨mem_keyList_aupd hx1, mem_keyList_aupd hx2⟩
    · intro v q hv
      by_cases hveq : v = nw.1
      · subst hveq
        exact hreach
      · rw [alookup_aupd_ne hveq] at hv
        exact hD _ _ hv
    · intro v u hv
      by_cases hveq : v = nw.1
      · subst hveq
        exact hreach
      · rw [alookup_aupd_ne hveq] at hv
        exact hPr _ _ hv

/-- C4: for every graph and present source, a successful run maps every
vertex unreachable from the source to the `inf` distance and `none`
predecessor. -/
theorem claim4_unreachable_inf_none {g : Graph α R} {source v : α}
    {d : List (α × Dist R)} {p : List (α × Option α)}
    (h : dijkstra g source = Except.ok (d, p))
    (hv : v ∈ keyList g.vertices) (hun : ¬Reachable g source v) :
    alookup d v = some Dist.inf ∧ alookup p v = some none := by
  have hinv : UnreachInv g source ⟨d, p⟩ :=
    dijkstra_inv unreachInv_step unreachInv_init h
  obtain ⟨hK, hD, hPr⟩ := hinv
  obtain ⟨hv1, hv2⟩ := hK v hv
  constructor
  · obtain ⟨dv, hdv⟩ := Option.isSome_iff_exists.mp
      (alookup_isSome_iff_mem.mpr hv1)
    cases dv with
    | inf => exact hdv
    | fin q => exact absurd (hD _ _ hdv) hun
  · obtain ⟨pv, hpv⟩ := Option.isSome_iff_exists.mp
      (alookup_isSome_iff_mem.mpr hv2)
    cases pv with
    | none => exact hpv
    | some u => exact absurd (hPr _ _ hpv) hun

/-- Witness for C4 on the edgeless two-vertex graph: `"B"` is unreachable
from `"A"` and ends at `inf` with no predecessor. -/
theorem claim4_witness :
    dijkstra gDisc vA =
        Except.ok ([(vA, Dist.fin 0), (vB, Dist.inf)],
          [(vA, none), (vB, none)]) ∧
      vB ∈ keyList gDisc.vertices ∧ ¬Reachable gDisc vA vB ∧
      alookup [((vA : String), Dist.fin (0 : ℤ)), (vB, Dist.inf)] vB =
          some Dist.inf ∧
      alookup [((vA : String), (none : Option String)), (vB, none)] vB =
          some none := by
  have hrun : dijkstra gDisc vA =
      Except.ok ([(vA, Dist.fin 0), (vB, Dist.inf)],
        [(vA, none), (vB, none)]) := by decide
  have hun : ¬Reachable gDisc vA vB :=
    not_reachable_of_no_edges (by decide) (by decide)
  exact ⟨hrun, by decide, hun,
    (claim4_unreachable_inf_none hrun (by decide) hun).1,
    (claim4_unreachable_inf_none hrun (by decide) hun).2⟩

/-! ### C8: self-loops -/

theorem alookup_map_entry {γ : Type} {f : α → β → γ} {l : List (α × β)}
    {k : α} :
    alookup (l.map fun p => (p.1, f p.1 p.2)) k =
      Option.map (f k) (alookup l k) := by
  induction l with
  | nil => rfl
  | cons p t ih =>
    obtain ⟨a, b⟩ := p
    by_cases hak : a = k
    · subst hak
      simp [alookup_cons]
    · simp [alookup_cons, hak, ih]

theorem keyList_map_entry {γ : Type} {f : α → β → γ} {l : List (α × β)} :
    keyList (l.map fun p => (p.1, f p.1 p.2)) = keyList l := by
  induction l with
  | nil => rfl
  | cons p t ih =>
    obtain ⟨a, b⟩ := p
    simpa [keyList_cons] using ih

theorem keyList_delSelfLoops {g : Graph α W} :
    keyList (delSelfLoops g).vertices = keyList g.vertices := by
  unfold delSelfLoops
  dsimp only
  exact keyList_map_entry
    (f := fun (a : α) (b : List (α × W)) =>
      List.filter (fun q => decide (q.1 ≠ a)) b)

theorem get_neighbors_delSelfLoops {g : Graph α W} {cur : α} :
    (delSelfLoops g).get_neighbors cur =
      (g.get_neighbors cur).filter fun q => q.1 ≠ cur := by
  obtain ⟨l⟩ := g
  induction l with
  | nil => rfl
  | cons p t ih =>
    obtain ⟨a, b⟩ := p
    unfold delSelfLoops Graph.get_neighbors at ih ⊢
    dsimp only at ih ⊢
    by_cases hak : a = cur
    · subst hak
      simp [alookup_cons]
    · simp only [List.map_cons, alookup_cons, hak, if_false]
      exact ih

theorem initSt_delSelfLoops {g : Graph α W} {source : α} :
    initSt (delSelfLoops g) source = initSt g source := by
  unfold initSt
  rw [keyList_delSelfLoops]

theorem relaxOne_keys_mono {st : St α W} {cur : α} {nw : α × W} {st2 : St α W}
    (h : relaxOne st cur nw = Except.ok st2) {x : α}
    (hx : x ∈ keyList st.distances) : x ∈ keyList st2.distances := by
  rcases relaxOne_ok_cases h with rfl | ⟨dc, dn, _, _, _, rfl⟩
  · exact hx
  · exact mem_keyList_aupd hx

theorem relaxList_keys_mono {cur : α} {l : List (α × W)} :
    ∀ {st st2 : St α W}, relaxList st cur l = Except.ok st2 →
      ∀ x ∈ keyList st.distances, x ∈ keyList st2.distances := by
  induction l with
  | nil =>
    intro st st2 h x hx
    rw [relaxList] at h
    cases h
    exact hx
  | cons nw rest ih =>
    intro st st2 h x hx
    rw [relaxList] at h
    rcases hone : relaxOne st cur nw with e | st1 <;> simp only [hone] at h
    · cases h
    · exact ih h x (relaxOne_keys_mono hone hx)

theorem relaxOne_self_noop {st : St α R} {cur : α} {nw : α × R} {dc : Dist R}
    (hq : nw.1 = cur) (hdc : alookup st.distances cur = some dc)
    (hw : 0 ≤ nw.2) : relaxOne st cur nw = Except.ok st := by
  have hfalse : dlt (addD dc nw.2) dc = false := by
    cases dc with
    | inf => rfl
    | fin qc =>
      rw [addD_fin]
      simp only [dlt, decide_eq_false_iff_not, not_lt]
      exact le_add_of_nonneg_right hw
  unfold relaxOne
  rw [hq, hdc]
  dsimp only
  simp [hfalse]

theorem relaxList_filter_selfloops {cur : α} {l : List (α × R)}
    (hw : ∀ q ∈ l, q.1 = cur → 0 ≤ q.2) :
    ∀ st : St α R, (alookup st.distances cur).isSome →
      relaxList st cur (l.filter fun q => q.1 ≠ cur) = relaxList st cur l := by
  induction l with
  | nil => intro st _; rfl
  | cons q rest ih =>
    intro st hcur
    obtain ⟨dc, hdc⟩ := Option.isSome_iff_exists.mp hcur
    by_cases hq : q.1 = cur
    · have hnoop : relaxOne st cur q = Except.ok st :=
        relaxOne_self_noop hq hdc (hw q (List.mem_cons_self _ _) hq)
      have hfilter : ((q :: rest).filter fun q => q.1 ≠ cur) =
          rest.filter fun q => q.1 ≠ cur := by
        simp [List.filter_cons, hq]
      rw [hfilter, show relaxList st cur (q :: rest) = relaxList st cur rest
        from by rw [relaxList, hnoop]]
      exact ih (fun q2 hm => hw q2 (List.mem_cons_of_mem _ hm)) st hcur
    · have hfilter : ((q :: rest).filter fun q => q.1 ≠ cur) =
          q :: rest.filter fun q => q.1 ≠ cur := by
        simp [List.filter_cons, hq]
      rw [hfilter, relaxList, relaxList]
      rcases hone : relaxOne st cur q with e | st1
      · rfl
      · have hcur1 : (alookup st1.distances cur).isSome := by
          rcases relaxOne_ok_cases hone with rfl | ⟨dc2, dn2, _, _, _, rfl⟩
          · exact hcur
          · simp only
            rw [alookup_aupd_ne (fun hh => hq hh.symm)]
            exact hcur
        exact ih (fun q2 hm => hw q2 (List.mem_cons_of_mem _ hm)) st1 hcur1

theorem nonnegSelfLoops_neighbors {g : Graph α R} (hsl : NonnegSelfLoops g)
    (cur : α) : ∀ q ∈ g.get_neighbors cur, q.1 = cur → 0 ≤ q.2 := by
  intro q hm hq
  obtain ⟨nbrs, _, hmem, hnw⟩ := mem_get_neighbors hm
  exact hsl _ hmem _ hnw hq

theorem dijkstraLoop_delSelfLoops {g : Graph α R} (hsl : NonnegSelfLoops g) :
    ∀ (fuel : ℕ) (unvisited : List α) (st : St α R),
      (∀ x ∈ unvisited, x ∈ keyList st.distances) →
      dijkstraLoop (delSelfLoops g) fuel unvisited st =
        dijkstraLoop g fuel unvisited st := by
  intro fuel
  induction fuel with
  | zero =>
    intro unvisited st _
    cases unvisited <;> rfl
  | succ fuel ih =>
    intro unvisited st hsub
    cases unvisited with
    | nil => rfl
    | cons u us =>
      rw [dijkstraLoop_cons, dijkstraLoop_cons]
      have hcur : (alookup st.distances (pyMin st.distances u us)).isSome :=
        alookup_isSome_iff_mem.mpr (hsub _ (pyMin_mem u us))
      have hrelax : relaxList st (pyMin st.distances u us)
          ((delSelfLoops g).get_neighbors (pyMin st.distances u us)) =
          relaxList st (pyMin st.distances u us)
            (g.get_neighbors (pyMin st.distances u us)) := by
        rw [get_neighbors_delSelfLoops]
        exact relaxList_filter_selfloops
          (nonnegSelfLoops_neighbors hsl _) st hcur
      rw [hrelax]
      rcases hr : relaxList st (pyMin st.distances u us)
          (g.get_neighbors (pyMin st.distances u us)) with e | st2 <;>
        simp only [hr]
      have hsub2 : ∀ x ∈ (u :: us).erase (pyMin st.distances u us),
          x ∈ keyList st2.distances :=
        fun x hx => relaxList_keys_mono hr x (hsub x (List.mem_of_mem_erase hx))
      rw [ih ((u :: us).erase (pyMin st.distances u us)) st2 hsub2]

/-- C8 (amended): when every self-loop weight is non-negative, `dijkstra`
returns exactly the same result on `g` and on `g` with all self-loops
deleted: self-loops are inert. -/
theorem claim8_amended_selfloops_inert {g : Graph α R}
    (hsl : NonnegSelfLoops g) (source : α) :
    dijkstra (delSelfLoops g) source = dijkstra g source := by
  by_cases hs : (alookup g.vertices source).isSome
  · have hs2 : (alookup (delSelfLoops g).vertices source).isSome := by
      rw [alookup_isSome_iff_mem, keyList_delSelfLoops]
      exact alookup_isSome_iff_mem.mp hs
    rw [dijkstra_eq_loop hs, dijkstra_eq_loop hs2, initSt_delSelfLoops,
      keyList_delSelfLoops]
    rw [dijkstraLoop_delSelfLoops hsl]
    intro x hx
    rcases keysInv_init hs with ⟨hd, _⟩
    rw [hd]
    exact hx
  · have hnone := Option.not_isSome_iff_eq_none.mp hs
    have hnone2 : alookup (delSelfLoops g).vertices source = none := by
      rw [alookup_eq_none_iff_not_mem, keyList_delSelfLoops]
      exact alookup_eq_none_iff_not_mem.mp hnone
    rw [dijkstra_of_absent hnone, dijkstra_of_absent hnone2]

/-- C8 counterexample: with the negative self-loop graph `gNeg`, `dijkstra`
differs between the graph with and without its self-loop, refuting the claim
as stated for arbitrary (negative-weight) self-loops. -/
theorem claim8_counterexample :
    dijkstra gNeg vA =
        Except.ok ([(vA, Dist.fin (-1))], [(vA, some vA)]) ∧
      dijkstra (delSelfLoops gNeg) vA =
        Except.ok ([(vA, Dist.fin 0)], [(vA, none)]) ∧
      dijkstra gNeg vA ≠ dijkstra (delSelfLoops gNeg) vA :=
  ⟨by decide, by decide, by decide⟩

/-- Witness for C8 (amended) on an API-built graph containing a self-loop of
weight 5. -/
theorem claim8_witness :
    NonnegSelfLoops gLoop ∧
      dijkstra (delSelfLoops gLoop) vA = dijkstra gLoop vA :=
  ⟨by decide, claim8_amended_selfloops_inert (by decide) vA⟩

/-- C1: on the literal example graph of `__main__` (edges A–B=4, A–C=2, B–C=1,
B–D=5, C–D=8, C–E=10, D–E=2, D–F=6, E–F=3), `dijkstra(g, "A")` returns
distances A=0, B=3, C=2, D=8, E=10, F=13 and predecessors A=none, B=C, C=A,
D=B, E=D, F=E. -/
theorem claim1_example_run :
    dijkstra gEx vA =
      Except.ok
        ([(vA, Dist.fin 0), (vB, Dist.fin 3), (vC, Dist.fin 2),
          (vD, Dist.fin 8), (vE, Dist.fin 10), (vF, Dist.fin 13)],
         [(vA, none), (vB, some vC), (vC, some vA), (vD, some vB),
          (vE, some vD), (vF, some vE)]) := by
  decide

/-! ### Order lemmas for `Dist` and `pyMin` -/

theorem dle_refl (d : Dist W) : dle d d := by
  cases d <;> simp [dle]

theorem dle_trans {d1 d2 d3 : Dist W} (h1 : dle d1 d2) (h2 : dle d2 d3) :
    dle d1 d3 := by
  cases d1 <;> cases d2 <;> cases d3 <;> simp [dle] at * <;>
    exact le_trans h1 h2

theorem not_dlt_iff {d1 d2 : Dist W} : dlt d1 d2 = false ↔ dle d2 d1 := by
  cases d1 <;> cases d2 <;> simp [dlt, dle, not_lt]

theorem dlt_imp_dle {d1 d2 : Dist W} (h : dlt d1 d2 = true) : dle d1 d2 := by
  cases d1 <;> cases d2 <;> simp [dlt, dle] at * <;> exact le_of_lt h

theorem dle_fin_fin {a b : W} : dle (Dist.fin a) (Dist.fin b) ↔ a ≤ b :=
  Iff.rfl

theorem dle_inf (d : Dist W) : dle d Dist.inf := by
  cases d <;> simp [dle]

theorem inf_dle_iff {d : Dist W} : dle Dist.inf d ↔ d = Dist.inf := by
  cases d <;> simp [dle]

theorem addD_zero {d : Dist R} : addD d 0 = d := by
  cases d <;> simp [addD]

theorem addD_addD {d : Dist R} {w1 w2 : R} :
    addD (addD d w1) w2 = addD d (w1 + w2) := by
  cases d <;> simp [addD, add_assoc]

theorem dle_addD_self {d : Dist R} {w : R} (hw : 0 ≤ w) :
    dle d (addD d w) := by
  cases d <;> simp [addD, dle]
  exact le_add_of_nonneg_right hw

theorem addD_mono {d1 d2 : Dist R} {w : R} (h : dle d1 d2) :
    dle (addD d1 w) (addD d2 w) := by
  cases d1 <;> cases d2 <;> simp [addD, dle] at * <;>
    exact add_le_add_right h w

theorem addD_mono_wt {d : Dist R} {w1 w2 : R} (h : w1 ≤ w2) :
    dle (addD d w1) (addD d w2) := by
  cases d <;> simp [addD, dle]
  exact add_le_add_left h _

theorem distOf_eq_of_alookup {d : List (α × Dist W)} {v : α} {dv : Dist W}
    (h : alookup d v = some dv) : distOf d v = dv := by
  unfold distOf
  rw [h]
  rfl

theorem alookup_eq_distOf {d : List (α × Dist W)} {v : α}
    (h : v ∈ keyList d) : alookup d v = some (distOf d v) := by
  obtain ⟨dv, hdv⟩ := Option.isSome_iff_exists.mp (alookup_isSome_iff_mem.mpr h)
  rw [hdv, distOf_eq_of_alookup hdv]

theorem pyMin_le {d : List (α × Dist W)} :
    ∀ (best : α) (xs : List α), ∀ y ∈ best :: xs,
      dle (distOf d (pyMin d best xs)) (distOf d y) := by
  intro best xs
  induction xs generalizing best with
  | nil =>
    intro y hy
    rcases List.mem_cons.mp hy with heq | hy
    · subst heq
      exact dle_refl _
    · simp at hy
  | cons x xs ih =>
    intro y hy
    rw [pyMin]
    by_cases hcmp : dlt (distOf d x) (distOf d best) = true
    · rw [if_pos hcmp]
      rcases List.mem_cons.mp hy with heq | hy
      · subst heq
        exact dle_trans (ih x x (List.mem_cons_self _ _)) (dlt_imp_dle hcmp)
      · exact ih x y hy
    · rw [if_neg hcmp]
      have hle : dle (distOf d best) (distOf d x) := by
        apply not_dlt_iff.mp
        simpa using hcmp
      rcases List.mem_cons.mp hy with heq | hy
      · subst heq
        exact ih y y (List.mem_cons_self _ _)
      · rcases List.mem_cons.mp hy with heq | hy
        · subst heq
          exact dle_trans (ih best best (List.mem_cons_self _ _)) hle
        · exact ih best y (List.mem_cons_of_mem _ hy)

/-! ### Walks in well-formed graphs -/

theorem alookup_of_mem_nodupkeys {l : List (α × β)} {k : α} {b : β}
    (hnd : (keyList l).Nodup) (hm : (k, b) ∈ l) : alookup l k = some b := by
  induction l with
  | nil => simp at hm
  | cons p t ih =>
    obtain ⟨a, c⟩ := p
    rw [keyList_cons, List.nodup_cons] at hnd
    rcases List.mem_cons.mp hm with hm | hm
    · cases hm
      simp [alookup_cons]
    · have hak : a ≠ k := by
        intro hh
        subst hh
        exact hnd.1 (List.mem_map.mpr ⟨(a, b), hm, rfl⟩)
      rw [alookup_cons, if_neg hak]
      exact ih hnd.2 hm

theorem edgeWeight_of_mem_neighbors {g : Graph α W} {cur : α} {nw : α × W}
    (hwf : WellFormed g) (hm : nw ∈ g.get_neighbors cur) :
    edgeWeight g cur nw.1 = some nw.2 := by
  obtain ⟨nbrs, hl, hmem, hnw⟩ := mem_get_neighbors hm
  unfold edgeWeight Graph.get_neighbors
  rw [hl]
  exact alookup_of_mem_nodupkeys (hwf.nodupNbrs _ hmem) (by simpa using hnw)

theorem edge_weight_nonneg {g : Graph α R} {u x : α} {wt : R}
    (hnn : NonnegWeights g) (he : edgeWeight g u x = some wt) : 0 ≤ wt := by
  unfold edgeWeight Graph.get_neighbors at he
  cases hl : alookup g.vertices u with
  | none => rw [hl] at he; simp [alookup] at he
  | some nbrs =>
    rw [hl] at he
    exact hnn _ (alookup_eq_some_mem hl) _ (alookup_eq_some_mem he)

theorem edge_snd_mem {g : Graph α W} {u x : α} {wt : W}
    (hcl : ∀ p ∈ g.vertices, ∀ q ∈ p.2, q.1 ∈ keyList g.vertices)
    (he : edgeWeight g u x = some wt) : x ∈ keyList g.vertices := by
  unfold edgeWeight Graph.get_neighbors at he
  cases hl : alookup g.vertices u with
  | none => rw [hl] at he; simp [alookup] at he
  | some nbrs =>
    rw [hl] at he
    exact hcl _ (alookup_eq_some_mem hl) _ (alookup_eq_some_mem he)

theorem walk_weight_nonneg {g : Graph α R} {s v : α} {p : List α} {w : R}
    (hnn : NonnegWeights g) (hw : Walk g s v p w) : 0 ≤ w := by
  induction hw with
  | nil => exact le_refl 0
  | cons he hw2 ih => exact add_nonneg (edge_weight_nonneg hnn he) ih

theorem walk_last {g : Graph α W} {s v : α} {p : List α} {w : W}
    (hw : Walk g s v p w) : ∃ p0, p = p0 ++ [v] := by
  induction hw with
  | nil v0 => exact ⟨[], rfl⟩
  | cons he hw2 ih =>
    obtain ⟨p0, hp0⟩ := ih
    exact ⟨_ :: p0, by rw [hp0]; rfl⟩

theorem walk_mem_keys {g : Graph α W} {s v : α} {p : List α} {w : W}
    (hcl : ∀ p ∈ g.vertices, ∀ q ∈ p.2, q.1 ∈ keyList g.vertices)
    (hw : Walk g s v p w) (hs : s ∈ keyList g.vertices) :
    ∀ x ∈ p, x ∈ keyList g.vertices := by
  induction hw with
  | nil v0 =>
    intro x hx
    simp at hx
    rwa [hx]
  | cons he hw2 ih =>
    intro x hx
    rcases List.mem_cons.mp hx with rfl | hx
    · exact hs
    · exact ih (edge_snd_mem hcl he) x hx

theorem reachable_mem_keys {g : Graph α W} {s v : α}
    (hcl : ∀ p ∈ g.vertices, ∀ q ∈ p.2, q.1 ∈ keyList g.vertices)
    (hs : s ∈ keyList g.vertices) (hr : Reachable g s v) :
    v ∈ keyList g.vertices := by
  obtain ⟨p, w, hw⟩ := hr
  obtain ⟨p0, rfl⟩ := walk_last hw
  exact walk_mem_keys hcl hw hs v (by simp)

/-! ### `followPred` fuel and congruence lemmas -/

theorem followPred_last {pred : List (α × Option α)} :
    ∀ {f : ℕ} {v : α} {p : List α}, followPred pred f v = some p →
      ∃ p0, p = p0 ++ [v] := by
  intro f
  induction f with
  | zero => intro v p h; simp [followPred] at h
  | succ f ih =>
    intro v p h
    rw [followPred] at h
    rcases hl : alookup pred v with _ | (_ | u) <;> simp only [hl] at h
    · cases h
    · cases h
      exact ⟨[], rfl⟩
    · rcases hf : followPred pred f u with _ | p0 <;>
        simp only [hf, Option.map_none', Option.map_some'] at h
      · cases h
      · cases h
        exact ⟨p0, rfl⟩

theorem followPred_fuel {pred : List (α × Option α)} :
    ∀ {f : ℕ} {v : α} {p : List α}, followPred pred f v = some p →
      ∀ {f2 : ℕ}, p.length ≤ f2 → followPred pred f2 v = some p := by
  intro f
  induction f with
  | zero => intro v p h; simp [followPred] at h
  | succ f ih =>
    intro v p h f2 hlen
    rw [followPred] at h
    rcases hl : alookup pred v with _ | (_ | u) <;> simp only [hl] at h
    · cases h
    · cases h
      cases f2 with
      | zero => simp at hlen
      | succ f2 =>
        rw [followPred, hl]
    · rcases hf : followPred pred f u with _ | p0 <;>
        simp only [hf, Option.map_none', Option.map_some'] at h
      · cases h
      · cases h
        cases f2 with
        | zero => simp at hlen
        | succ f2 =>
          have hbound : p0.length ≤ f2 := by
            simp only [List.length_append, List.length_cons,
              List.length_nil] at hlen
            omega
          rw [followPred, hl]
          simp only [ih hf hbound, Option.map_some']

theorem followPred_mem {pred : List (α × Option α)} {f : ℕ} {v : α}
    {p : List α} (h : followPred pred f v = some p) : v ∈ p := by
  obtain ⟨p0, rfl⟩ := followPred_last h
  simp

theorem followPred_aupd {pred : List (α × Option α)} {x : α} {c : Option α} :
    ∀ {f : ℕ} {v : α} {p : List α}, followPred pred f v = some p → x ∉ p →
      followPred (aupd pred x c) f v = some p := by
  intro f
  induction f with
  | zero => intro v p h; simp [followPred] at h
  | succ f ih =>
    intro v p h hx
    have hvx : v ≠ x := by
      intro hh
      subst hh
      exact hx (followPred_mem h)
    rw [followPred] at h ⊢
    rw [alookup_aupd_ne hvx]
    rcases hl : alookup pred v with _ | (_ | u) <;> simp only [hl] at h ⊢
    · cases h
    · exact h
    · rcases hf : followPred pred f u with _ | p0 <;>
        simp only [hf, Option.map_none', Option.map_some'] at h
      · cases h
      · cases h
        have hx0 : x ∉ p0 := fun hh => hx (List.mem_append_left _ hh)
        rw [ih hf hx0]
        rfl

theorem nodup_subset_length {l l2 : List α} (h : l.Nodup) (hs : l ⊆ l2) :
    l.length ≤ l2.length := by
  classical
  calc l.length = l.toFinset.card := (List.toFinset_card_of_nodup h).symm
  _ ≤ l2.toFinset.card := Finset.card_le_card (fun x hx => by
      rw [List.mem_toFinset] at *
      exact hs hx)
  _ ≤ l2.length := l2.toFinset_card_le

/-! ### Relaxation bounds and the walk lower-bound lemma -/

theorem relaxOne_dist_mono {st : St α R} {cur : α} {nw : α × R} {st2 : St α R}
    (h : relaxOne st cur nw = Except.ok st2) (v : α) :
    dle (distOf st2.distances v) (distOf st.distances v) := by
  rcases relaxOne_ok_cases h with rfl | ⟨dc, dn, hdc, hdn, hcmp, rfl⟩
  · exact dle_refl _
  · dsimp only
    by_cases hv : v = nw.1
    · subst hv
      rw [distOf_eq_of_alookup (alookup_aupd_self (l := st.distances)),
        distOf_eq_of_alookup hdn]
      exact dlt_imp_dle hcmp
    · unfold distOf
      rw [alookup_aupd_ne hv]
      exact dle_refl _

theorem relaxList_dist_mono {cur : α} {l : List (α × R)} :
    ∀ {st st2 : St α R}, relaxList st cur l = Except.ok st2 → ∀ v,
      dle (distOf st2.distances v) (distOf st.distances v) := by
  induction l with
  | nil =>
    intro st st2 h v
    rw [relaxList] at h
    cases h
    exact dle_refl _
  | cons nw rest ih =>
    intro st st2 h v
    rw [relaxList] at h
    rcases hone : relaxOne st cur nw with e | st1 <;> simp only [hone] at h
    · cases h
    · exact dle_trans (ih h v) (relaxOne_dist_mono hone v)

theorem relaxOne_ok_bound {st st2 : St α R} {cur : α} {nw : α × R}
    {dc : Dist R} (h : relaxOne st cur nw = Except.ok st2)
    (hdc : alookup st.distances cur = some dc) :
    dle (distOf st2.distances nw.1) (addD dc nw.2) := by
  unfold relaxOne at h
  rw [hdc] at h
  rcases hdn : alookup st.distances nw.1 with _ | dn <;> simp only [hdn] at h
  · cases h
  · by_cases hcmp : dlt (addD dc nw.2) dn = true
    · rw [if_pos hcmp] at h
      cases h
      dsimp only
      rw [distOf_eq_of_alookup (alookup_aupd_self (l := st.distances))]
      exact dle_refl _
    · rw [if_neg hcmp] at h
      cases h
      rw [distOf_eq_of_alookup hdn]
      exact not_dlt_iff.mp (by simpa using hcmp)

/-- The defining property of the minimum-selection plus relaxed visited
edges: the final distance of any walk target is bounded by the start's
distance plus the walk weight, unless the walk crosses the unvisited
frontier at a vertex already at least that cheap. -/
theorem walk_bound {g : Graph α R} {U : List α} {st : St α R}
    (hcl : ∀ p ∈ g.vertices, ∀ q ∈ p.2, q.1 ∈ keyList g.vertices)
    (hnn : NonnegWeights g)
    (hrelaxed : ∀ u ∈ keyList g.vertices, u ∉ U → ∀ x wt,
      edgeWeight g u x = some wt →
      dle (distOf st.distances x) (addD (distOf st.distances u) wt)) :
    ∀ {u t : α} {p : List α} {w : R}, Walk g u t p w →
      u ∈ keyList g.vertices → u ∉ U →
      dle (distOf st.distances t) (addD (distOf st.distances u) w) ∨
        ∃ y, y ∈ U ∧
          dle (distOf st.distances y) (addD (distOf st.distances u) w) := by
  intro u t p w hw
  induction hw with
  | nil v0 =>
    intro _ _
    left
    rw [addD_zero]
    exact dle_refl _
  | @cons u0 v x p2 wt w2 he hw2 ih =>
    intro hu0K hu0vis
    have hvK : v ∈ keyList g.vertices := edge_snd_mem hcl he
    have hrel := hrelaxed _ hu0K hu0vis _ _ he
    have hw2nn : 0 ≤ w2 := walk_weight_nonneg hnn hw2
    by_cases hvU : v ∈ U
    · right
      exact ⟨v, hvU,
        dle_trans hrel (addD_mono_wt (le_add_of_nonneg_right hw2nn))⟩
    · rcases ih hvK hvU with hbound | ⟨y, hyU, hy⟩
      · left
        refine dle_trans hbound ?_
        rw [← addD_addD]
        exact addD_mono hrel
      · right
        refine ⟨y, hyU, dle_trans hy ?_⟩
        rw [← addD_addD]
        exact addD_mono hrel

/-! ### Preservation of the round invariant by one relaxation -/

theorem distOf_aupd_self {d : List (α × Dist W)} {k : α} {nd : Dist W} :
    distOf (aupd d k nd) k = nd :=
  distOf_eq_of_alookup alookup_aupd_self

theorem distOf_aupd_ne {d : List (α × Dist W)} {k v : α} {nd : Dist W}
    (h : v ≠ k) : distOf (aupd d k nd) v = distOf d v := by
  unfold distOf
  rw [alookup_aupd_ne h]

theorem roundInv_step {g : Graph α R} {source cur : α} {U : List α}
    {st0 : St α R} (hwf : WellFormed g) (hnn : NonnegWeights g)
    (hinv : DijkInv g source U st0) (hsrcK : source ∈ keyList g.vertices)
    (hcurU : cur ∈ U) (hcurK : cur ∈ keyList g.vertices)
    (hmin : ∀ y ∈ U, dle (distOf st0.distances cur) (distOf st0.distances y)) :
    ∀ (st : St α R) (nw : α × R), nw ∈ g.get_neighbors cur →
      RoundInv g source cur (U.erase cur) st0 st →
      ∀ st2, relaxOne st cur nw = Except.ok st2 →
        RoundInv g source cur (U.erase cur) st0 st2 := by
  intro st nw hmem hJ st2 hone
  obtain ⟨J1, J0, J2, J3, J4, J5⟩ := hJ
  rcases relaxOne_ok_cases hone with rfl | ⟨dc, dn, hdc, hdn, hcmp, rfl⟩
  · exact ⟨J1, J0, J2, J3, J4, J5⟩
  have hedge : edgeWeight g cur nw.1 = some nw.2 :=
    edgeWeight_of_mem_neighbors hwf hmem
  have hwtnn : 0 ≤ nw.2 := edge_weight_nonneg hnn hedge
  have hcurU2 : cur ∉ U.erase cur := hinv.unodup.not_mem_erase
  have hdccur : distOf st.distances cur = distOf st0.distances cur :=
    J2 cur hcurU2
  have hdcval : dc = distOf st0.distances cur := by
    rw [← hdccur]
    exact (distOf_eq_of_alookup hdc).symm
  cases hdc0 : distOf st0.distances cur with
  | inf =>
    exfalso
    rw [hdcval, hdc0, addD_inf, dlt_inf_left] at hcmp
    cases hcmp
  | fin qc =>
  have hdcfin : dc = Dist.fin qc := by rw [hdcval, hdc0]
  obtain ⟨pc, hfpc, hwpc, hndpc, hdlpc⟩ := J5 cur qc (by rw [hdc, hdcfin])
  have hqcnn : 0 ≤ qc := walk_weight_nonneg hnn hwpc
  have hxK : nw.1 ∈ keyList g.vertices := edge_snd_mem hwf.closed hedge
  have hdnval : dn = distOf st.distances nw.1 :=
    (distOf_eq_of_alookup hdn).symm
  have hxU2 : nw.1 ∈ U.erase cur := by
    by_contra hxU2
    have hxdist : distOf st.distances nw.1 = distOf st0.distances nw.1 :=
      J2 _ hxU2
    have hge : dle (distOf st0.distances nw.1)
        (addD (distOf st0.distances cur) nw.2) := by
      by_cases hxcur : nw.1 = cur
      · rw [hxcur]
        exact dle_addD_self hwtnn
      · have hxU : nw.1 ∉ U := fun hxU =>
          hxU2 (hinv.unodup.mem_erase_iff.mpr ⟨hxcur, hxU⟩)
        exact dle_trans (hinv.mono _ hxK hxU cur hcurU) (dle_addD_self hwtnn)
    rw [hdnval, hxdist, hdcval] at hcmp
    rw [not_dlt_iff.mpr hge] at hcmp
    cases hcmp
  have hxmemd : nw.1 ∈ keyList st.distances := by
    rw [J1]
    exact hxK
  -- the chain of `cur` ends at `cur` and avoids the update target
  obtain ⟨pc0, hpc0⟩ := walk_last hwpc
  have hdl : pc.dropLast = pc0 := by
    rw [hpc0]
    simp
  have hxpc : nw.1 ∉ pc := by
    rw [hpc0]
    intro hmem2
    rcases List.mem_append.mp hmem2 with hmem2 | hmem2
    · exact hdlpc nw.1 (by rw [hdl]; exact hmem2) hxU2
    · simp at hmem2
      rw [hmem2] at hxU2
      exact hcurU2 hxU2
  obtain ⟨kk, hkk⟩ : ∃ kk, (keyList g.vertices).length = kk + 1 := by
    cases hK : keyList g.vertices with
    | nil =>
      rw [hK] at hcurK
      simp at hcurK
    | cons a t => exact ⟨t.length, by simp⟩
  have hpcK : ∀ z ∈ pc, z ∈ keyList g.vertices :=
    walk_mem_keys hwf.closed hwpc hsrcK
  have hndx : (pc ++ [nw.1]).Nodup := by
    rw [List.nodup_append]
    simp [hndpc, hxpc, List.Disjoint]
    intro a ha hha
    rw [hha] at ha
    exact hxpc ha
  have hlenle : pc.length + 1 ≤ (keyList g.vertices).length := by
    have := nodup_subset_length hndx (fun z hz => by
      rcases List.mem_append.mp hz with hz | hz
      · exact hpcK z hz
      · simp at hz
        rw [hz]
        exact hxK)
    simpa using this
  have hpclen : pc.length ≤ kk := by omega
  have hfollow : followPred (aupd st.predecessors nw.1 (some cur))
      (keyList g.vertices).length nw.1 = some (pc ++ [nw.1]) := by
    rw [hkk, followPred]
    simp only [alookup_aupd_self]
    rw [followPred_aupd (followPred_fuel hfpc hpclen) hxpc]
    rfl
  refine ⟨?_, ?_, ?_, ?_, ?_, ?_⟩
  · dsimp only
    rw [keyList_aupd_of_mem hxmemd]
    exact J1
  · dsimp only
    have hxs : nw.1 ≠ source := by
      intro hh
      rw [hh, J0] at hdn
      cases hdn
      rw [hdcfin, addD_fin, dlt_fin_fin] at hcmp
      exact absurd hcmp (not_lt.mpr (add_nonneg hqcnn hwtnn))
    rw [alookup_aupd_ne (fun hh => hxs hh.symm)]
    exact J0
  · intro v hv
    dsimp only
    have hvx : v ≠ nw.1 := fun hh => hv (hh ▸ hxU2)
    rw [distOf_aupd_ne hvx]
    exact J2 v hv
  · intro v
    dsimp only
    by_cases hvx : v = nw.1
    · subst hvx
      rw [distOf_aupd_self]
      refine dle_trans (dlt_imp_dle ?_) (J3 nw.1)
      rw [← hdnval]
      exact hcmp
    · rw [distOf_aupd_ne hvx]
      exact J3 v
  · intro v
    dsimp only
    by_cases hvx : v = nw.1
    · subst hvx
      right
      exact ⟨nw.2, hedge, by rw [distOf_aupd_self, hdcval]⟩
    · rw [distOf_aupd_ne hvx]
      exact J4 v
  · intro v q hv
    dsimp only at hv ⊢
    by_cases hvx : v = nw.1
    · subst hvx
      rw [alookup_aupd_self] at hv
      rw [hdcfin, addD_fin] at hv
      simp only [Option.some.injEq, Dist.fin.injEq] at hv
      subst hv
      refine ⟨pc ++ [nw.1], hfollow, walk_snoc hwpc hedge, hndx, ?_⟩
      intro z hz
      have hz2 : z ∈ pc := by simpa using hz
      rw [hpc0] at hz2
      rcases List.mem_append.mp hz2 with hz2 | hz2
      · exact hdlpc z (by rw [hdl]; exact hz2)
      · simp at hz2
        rw [hz2]
        exact hcurU2
    · rw [alookup_aupd_ne hvx] at hv
      obtain ⟨pv, hfpv, hwpv, hndpv, hdlpv⟩ := J5 v q hv
      refine ⟨pv, ?_, hwpv, hndpv, hdlpv⟩
      refine followPred_aupd hfpv ?_
      obtain ⟨pv0, hpv0⟩ := walk_last hwpv
      rw [hpv0]
      intro hmem3
      rcases List.mem_append.mp hmem3 with hmem3 | hmem3
      · refine hdlpv nw.1 ?_ hxU2
        rw [hpv0]
        simpa using hmem3
      · simp at hmem3
        exact hvx hmem3.symm

/-! ### The relaxation round, the loop invariant, and C2 -/

theorem relax_progress {g : Graph α R} {source cur : α} {U : List α}
    {st0 : St α R} (hwf : WellFormed g) (hnn : NonnegWeights g)
    (hinv : DijkInv g source U st0) (hsrcK : source ∈ keyList g.vertices)
    (hcurU : cur ∈ U) (hcurK : cur ∈ keyList g.vertices)
    (hmin : ∀ y ∈ U, dle (distOf st0.distances cur) (distOf st0.distances y)) :
    ∀ (l : List (α × R)), (∀ nw ∈ l, nw ∈ g.get_neighbors cur) →
      ∀ (st st2 : St α R), RoundInv g source cur (U.erase cur) st0 st →
        relaxList st cur l = Except.ok st2 →
        ∀ nw ∈ l, dle (distOf st2.distances nw.1)
          (addD (distOf st0.distances cur) nw.2) := by
  intro l
  induction l with
  | nil =>
    intro _ st st2 _ _ nw hnw
    simp at hnw
  | cons nw0 rest ih =>
    intro hl st st2 hJ h nw hnw
    rw [relaxList] at h
    rcases hone : relaxOne st cur nw0 with e | st1 <;> simp only [hone] at h
    · cases h
    · have hJ1 : RoundInv g source cur (U.erase cur) st0 st1 :=
        roundInv_step hwf hnn hinv hsrcK hcurU hcurK hmin st nw0
          (hl nw0 (List.mem_cons_self _ _)) hJ st1 hone
      rcases List.mem_cons.mp hnw with heq | hnw2
      · subst heq
        obtain ⟨J1, J0, J2, J3, J4, J5⟩ := hJ
        have hdc : alookup st.distances cur =
            some (distOf st0.distances cur) := by
          have hmem2 : cur ∈ keyList st.distances := by
            rw [J1]
            exact hcurK
          rw [alookup_eq_distOf hmem2, J2 cur hinv.unodup.not_mem_erase]
        exact dle_trans (relaxList_dist_mono h nw.1)
          (relaxOne_ok_bound hone hdc)
      · exact ih (fun nw2 hm => hl nw2 (List.mem_cons_of_mem _ hm)) st1 st2
          hJ1 h nw hnw2

theorem dijk_round {g : Graph α R} {source u : α} {us : List α}
    {st st2 : St α R} (hwf : WellFormed g) (hnn : NonnegWeights g)
    (hsrcK : source ∈ keyList g.vertices)
    (hinv : DijkInv g source (u :: us) st)
    (hrel : relaxList st (pyMin st.distances u us)
      (g.get_neighbors (pyMin st.distances u us)) = Except.ok st2) :
    DijkInv g source ((u :: us).erase (pyMin st.distances u us)) st2 := by
  set cur := pyMin st.distances u us with hcurdef
  have hcurU : cur ∈ u :: us := pyMin_mem u us
  have hcurK : cur ∈ keyList g.vertices := hinv.usub _ hcurU
  have hmin : ∀ y ∈ u :: us,
      dle (distOf st.distances cur) (distOf st.distances y) :=
    fun y hy => pyMin_le u us y hy
  have hFcur : ∀ p w, Walk g source cur p w →
      dle (distOf st.distances cur) (Dist.fin w) := by
    intro p w hwk
    have hwnn : 0 ≤ w := walk_weight_nonneg hnn hwk
    have hsrc0 : distOf st.distances source = Dist.fin 0 :=
      distOf_eq_of_alookup hinv.srczero
    by_cases hsrcU : source ∈ u :: us
    · refine dle_trans (hmin source hsrcU) ?_
      rw [hsrc0]
      exact dle_fin_fin.mpr hwnn
    · rcases walk_bound hwf.closed hnn hinv.relaxed hwk hsrcK hsrcU with
        hb | ⟨y, hyU, hy⟩
      · rw [hsrc0, addD_fin, zero_add] at hb
        exact hb
      · refine dle_trans (hmin y hyU) ?_
        rw [hsrc0, addD_fin, zero_add] at hy
        exact hy
  have hJinit : RoundInv g source cur ((u :: us).erase cur) st st := by
    refine ⟨hinv.keysd, hinv.srczero, fun v _ => rfl, fun v => dle_refl _,
      fun v => Or.inl rfl, fun v q hv => ?_⟩
    obtain ⟨pv, h1, h2, h3, h4⟩ := hinv.chain v q hv
    exact ⟨pv, h1, h2, h3, fun x hx hx2 => h4 x hx (List.mem_of_mem_erase hx2)⟩
  have hJ2 : RoundInv g source cur ((u :: us).erase cur) st st2 :=
    relaxList_inv (fun st3 nw hmem hP st4 hone =>
      roundInv_step hwf hnn hinv hsrcK hcurU hcurK hmin st3 nw hmem hP st4
        hone) st st2 hJinit hrel
  have hprog := relax_progress hwf hnn hinv hsrcK hcurU hcurK hmin
    (g.get_neighbors cur) (fun nw hm => hm) st st2 hJinit hrel
  obtain ⟨J1, J0, J2, J3, J4, J5⟩ := hJ2
  have hcurnotU2 : cur ∉ (u :: us).erase cur := hinv.unodup.not_mem_erase
  refine ⟨J1, hinv.unodup.erase cur, fun x hx =>
    hinv.usub x (List.mem_of_mem_erase hx), J0, ?_, ?_, ?_, J5⟩
  · intro u2 hu2K hu2vis v hv
    have hu2d : distOf st2.distances u2 = distOf st.distances u2 :=
      J2 u2 hu2vis
    have hu2cur : dle (distOf st.distances u2) (distOf st.distances cur) := by
      by_cases hu2 : u2 = cur
      · rw [hu2]
        exact dle_refl _
      · have hu2U : u2 ∉ u :: us := fun hh =>
          hu2vis (hinv.unodup.mem_erase_iff.mpr ⟨hu2, hh⟩)
        exact hinv.mono u2 hu2K hu2U cur hcurU
    rcases J4 v with hold | ⟨wt, hwte, hupd⟩
    · rw [hu2d, hold]
      by_cases hu2 : u2 = cur
      · rw [hu2]
        exact hmin v (List.mem_of_mem_erase hv)
      · have hu2U : u2 ∉ u :: us := fun hh =>
          hu2vis (hinv.unodup.mem_erase_iff.mpr ⟨hu2, hh⟩)
        exact hinv.mono u2 hu2K hu2U v (List.mem_of_mem_erase hv)
    · rw [hu2d, hupd]
      exact dle_trans hu2cur (dle_addD_self (edge_weight_nonneg hnn hwte))
  · intro u2 hu2K hu2vis p w hwk
    have hu2d : distOf st2.distances u2 = distOf st.distances u2 :=
      J2 u2 hu2vis
    by_cases hu2 : u2 = cur
    · subst hu2
      rw [hu2d]
      exact hFcur p w hwk
    · have hu2U : u2 ∉ u :: us := fun hh =>
        hu2vis (hinv.unodup.mem_erase_iff.mpr ⟨hu2, hh⟩)
      rw [hu2d]
      exact hinv.vfin u2 hu2K hu2U p w hwk
  · intro u2 hu2K hu2vis x wt hwte
    by_cases hu2 : u2 = cur
    · rw [hu2] at hwte ⊢
      have hmem : (x, wt) ∈ g.get_neighbors cur := by
        unfold edgeWeight at hwte
        exact alookup_eq_some_mem hwte
      rw [J2 cur hcurnotU2]
      exact hprog (x, wt) hmem
    · have hu2U : u2 ∉ u :: us := fun hh =>
        hu2vis (hinv.unodup.mem_erase_iff.mpr ⟨hu2, hh⟩)
      rw [J2 u2 hu2vis]
      exact dle_trans (J3 x) (hinv.relaxed u2 hu2K hu2U x wt hwte)

theorem dijk_loop {g : Graph α R} {source : α} (hwf : WellFormed g)
    (hnn : NonnegWeights g) (hsrcK : source ∈ keyList g.vertices) :
    ∀ (fuel : ℕ) (U : List α) (st : St α R) {st3 : St α R} {n : ℕ},
      U.length ≤ fuel → DijkInv g source U st →
      dijkstraLoop g fuel U st = Except.ok (st3, n) →
      DijkInv g source [] st3 := by
  intro fuel
  induction fuel with
  | zero =>
    intro U st st3 n hlen hinv h
    rw [List.length_eq_zero.mp (Nat.le_zero.mp hlen)] at hinv h
    rw [dijkstraLoop_nil] at h
    cases h
    exact hinv
  | succ fuel ih =>
    intro U st st3 n hlen hinv h
    cases U with
    | nil =>
      rw [dijkstraLoop_nil] at h
      cases h
      exact hinv
    | cons u us =>
      rw [dijkstraLoop_cons] at h
      rcases hr : relaxList st (pyMin st.distances u us)
          (g.get_neighbors (pyMin st.distances u us)) with e | st2 <;>
        simp only [hr] at h
      · cases h
      · rcases hl : dijkstraLoop g fuel
            ((u :: us).erase (pyMin st.distances u us)) st2 with e | p <;>
          simp only [hl] at h
        · cases h
        · obtain ⟨st4, m⟩ := p
          cases h
          have hlen2 : ((u :: us).erase (pyMin st.distances u us)).length ≤
              fuel := by
            rw [List.length_erase_of_mem (pyMin_mem u us)]
            simp only [List.length_cons] at hlen ⊢
            omega
          exact ih _ st2 hlen2 (dijk_round hwf hnn hsrcK hinv hr) hl

theorem dijkInv_init {g : Graph α R} {source : α} (hwf : WellFormed g)
    (hsrcK : source ∈ keyList g.vertices) :
    DijkInv g source (keyList g.vertices) (initSt g source) := by
  refine ⟨(keysInv_init (alookup_isSome_iff_mem.mpr hsrcK)).1, hwf.nodupKeys,
    fun x hx => hx, alookup_aupd_self, fun u huK huvis => absurd huK huvis,
    fun u huK huvis => absurd huK huvis, fun u huK huvis => absurd huK huvis,
    fun v q hv => ?_⟩
  unfold initSt at hv
  simp only at hv
  by_cases hvs : v = source
  · subst hvs
    rw [alookup_aupd_self] at hv
    simp only [Option.some.injEq, Dist.fin.injEq] at hv
    obtain ⟨kk, hkk⟩ : ∃ kk, (keyList g.vertices).length = kk + 1 := by
      cases hK : keyList g.vertices with
      | nil =>
        rw [hK] at hsrcK
        simp at hsrcK
      | cons a t => exact ⟨t.length, by simp⟩
    refine ⟨[v], ?_, ?_, List.nodup_singleton v, by simp⟩
    · rw [hkk, followPred]
      unfold initSt
      simp only [alookup_map_const, hsrcK, if_pos]
    · rw [← hv]
      exact Walk.nil v
  · rw [alookup_aupd_ne hvs, alookup_map_const] at hv
    split_ifs at hv <;> cases hv

/-- C2: on a well-formed graph with non-negative edge weights, for every
vertex `v` reachable from the source, a successful `dijkstra` run assigns
`v` a finite distance `q` that is a lower bound on the weight of every walk
from the source to `v`, and following the returned predecessors map from
`v` reconstructs an actual walk of the graph from the source to `v` whose
edge weights sum to exactly `q` (so `q` is the minimum walk weight, attained
by the reconstructed path). -/
theorem claim2_shortest_paths {g : Graph α R} {source v : α}
    {d : List (α × Dist R)} {pr : List (α × Option α)}
    (hwf : WellFormed g) (hnn : NonnegWeights g)
    (h : dijkstra g source = Except.ok (d, pr))
    (hreach : Reachable g source v) :
    ∃ q, alookup d v = some (Dist.fin q) ∧
      (∀ p w, Walk g source v p w → q ≤ w) ∧
      ∃ p, followPred pr (keyList g.vertices).length v = some p ∧
        Walk g source v p q := by
  have hs : (alookup g.vertices source).isSome := by
    by_contra hs
    rw [dijkstra_of_absent (Option.not_isSome_iff_eq_none.mp hs)] at h
    cases h
  have hsrcK : source ∈ keyList g.vertices := alookup_isSome_iff_mem.mp hs
  rw [dijkstra_eq_loop hs] at h
  rcases hl : dijkstraLoop g (keyList g.vertices).length (keyList g.vertices)
      (initSt g source) with e | p0 <;> simp only [hl] at h
  · cases h
  obtain ⟨stf, n⟩ := p0
  cases h
  have hfin := dijk_loop hwf hnn hsrcK _ _ _ (le_refl _)
    (dijkInv_init hwf hsrcK) hl
  have hvK : v ∈ keyList g.vertices :=
    reachable_mem_keys hwf.closed hsrcK hreach
  have hvmem : v ∈ keyList stf.distances := by
    rw [hfin.keysd]
    exact hvK
  obtain ⟨pw, w0, hw0⟩ := hreach
  have hvfin := hfin.vfin v hvK (by simp) pw w0 hw0
  cases hdv : distOf stf.distances v with
  | inf =>
    rw [hdv, inf_dle_iff] at hvfin
    cases hvfin
  | fin q =>
    refine ⟨q, ?_, ?_, ?_⟩
    · rw [alookup_eq_distOf hvmem, hdv]
    · intro p w hwk
      have hb := hfin.vfin v hvK (by simp) p w hwk
      rw [hdv] at hb
      exact dle_fin_fin.mp hb
    · obtain ⟨p, h1, h2, _, _⟩ := hfin.chain v q
        (by rw [alookup_eq_distOf hvmem, hdv])
      exact ⟨p, h1, h2⟩

/-- Witness for C2 on the literal example graph at the reachable vertex
`"B"`. -/
theorem claim2_witness :
    ∃ d pr, dijkstra gEx vA = Except.ok (d, pr) ∧ WellFormed gEx ∧
      NonnegWeights gEx ∧ Reachable gEx vA vB ∧
      ∃ q, alookup d vB = some (Dist.fin q) ∧
        (∀ p w, Walk gEx vA vB p w → q ≤ w) ∧
        ∃ p, followPred pr (keyList gEx.vertices).length vB = some p ∧
          Walk gEx vA vB p q := by
  have hwf : WellFormed gEx := ⟨by decide, by decide, by decide⟩
  have hnn : NonnegWeights gEx := by decide
  have hrun : dijkstra gEx vA =
      Except.ok
        ([(vA, Dist.fin 0), (vB, Dist.fin 3), (vC, Dist.fin 2),
          (vD, Dist.fin 8), (vE, Dist.fin 10), (vF, Dist.fin 13)],
         [(vA, none), (vB, some vC), (vC, some vA), (vD, some vB),
          (vE, some vD), (vF, some vE)]) := by decide
  have hreach : Reachable gEx vA vB :=
    ⟨[vA, vB], 4 + 0, Walk.cons (by decide) (Walk.nil vB)⟩
  exact ⟨_, _, hrun, hwf, hnn, hreach,
    claim2_shortest_paths hwf hnn hrun hreach⟩

end Djikstra
